import Mathlib

/-!
Verification of the music-theory-explorer recommendation pipeline.

The Python sources under `src/python/models/` are shallowly embedded here:

* `chord_normalizer.py` — chord strings are `List Char`; `normalizeChord`,
  `parseQuality`, `toSimple` mirror `normalize_chord`, `parse_quality`,
  `ChordNotation.to_simple`.
* `markov_model.py` — Python dicts become association lists in insertion
  order (`upsert` is dict assignment: update in place, append new keys at
  the end); floats become exact rationals `ℚ`; `int()` truncation and
  `round()` (half-to-even) are modelled on `ℚ`.
* `pattern_extractor.py`, `recommender.py` — same conventions.

Python's stable sorts (`list.sort(key=..., reverse=True)`,
`Counter.most_common`) are modelled by `sortByDesc`, a stable
insertion sort producing descending key order with ties kept in
original order, which is exactly the output contract of CPython's
stable sort with `reverse=True`.
-/

namespace MTE

/-! ### Association-list primitives (Python `dict` in insertion order) -/

def alookup {K V : Type} [DecidableEq K] (l : List (K × V)) (k : K) : Option V :=
  match l with
  | [] => none
  | (k', v) :: t => if k' = k then some v else alookup t k

def getD {K V : Type} [DecidableEq K] (l : List (K × V)) (k : K) (d : V) : V :=
  (alookup l k).getD d

/-- Python dict assignment `d[k] = v`: update the first binding of `k` in
place, or append a new binding at the end. -/
def upsert {K V : Type} [DecidableEq K] (l : List (K × V)) (k : K) (v : V) :
    List (K × V) :=
  match l with
  | [] => [(k, v)]
  | (k', v') :: t => if k' = k then (k', v) :: t else (k', v') :: upsert t k v

def akeys {K V : Type} (l : List (K × V)) : List K := l.map Prod.fst

/-- Two-level lookup `d[k1][k2]` guarded by membership. -/
def alookup2 {K V : Type} [DecidableEq K] (l : List (K × List (K × V)))
    (k1 k2 : K) : Option V :=
  match alookup l k1 with
  | none => none
  | some inner => alookup inner k2

/-- Three-level lookup `d[k1][k2][k3]` guarded by membership. -/
def alookup3 {K V : Type} [DecidableEq K]
    (l : List (K × List (K × List (K × V)))) (k1 k2 k3 : K) : Option V :=
  match alookup l k1 with
  | none => none
  | some inner => alookup2 inner k2 k3

/-- Nested defaultdict assignment `d[k1][k2][k3] = v`. -/
def upsert3 {K V : Type} [DecidableEq K]
    (l : List (K × List (K × List (K × V)))) (k1 k2 k3 : K) (v : V) :
    List (K × List (K × List (K × V))) :=
  let inner1 := getD l k1 []
  let inner2 := getD inner1 k2 []
  upsert l k1 (upsert inner1 k2 (upsert inner2 k3 v))

/-! ### Stable descending sort (CPython `sort(key=..., reverse=True)`) -/

/-- Insert `x` after every element whose key is `≥ key x`; used left to
right this yields the stable descending order of Python's
`sorted(..., key=..., reverse=True)`. -/
def insertByDesc {α β : Type} [LinearOrder β] (key : α → β) (x : α) :
    List α → List α
  | [] => [x]
  | y :: t => if key x ≤ key y then y :: insertByDesc key x t else x :: y :: t

def sortByDesc {α β : Type} [LinearOrder β] (key : α → β) (l : List α) :
    List α :=
  l.foldl (fun acc x => insertByDesc key x acc) []

/-! ### Python numeric conversions on exact rationals -/

/-- Python `int(x)`: truncation toward zero. -/
def pyInt (q : ℚ) : ℤ := if 0 ≤ q then q.floor else -((-q).floor)

/-- Python `round(x)`: round half to even. -/
def pyRound (q : ℚ) : ℤ :=
  let f := q.floor
  let r := q - f
  if r < 1/2 then f else if 1/2 < r then f + 1 else if 2 ∣ f then f else f + 1

/-- Python `round(x, p)`: round to `p` decimal places (half to even). -/
def pyRoundPrec (q : ℚ) (p : ℕ) : ℚ := (pyRound (q * 10 ^ p) : ℚ) / 10 ^ p

/-! ### `chord_normalizer.py` -/

/-- `ChordNotation` from `chord_normalizer.py` (chord strings as `List Char`). -/
structure ChordNotation where
  root : List Char
  quality : List Char
  bass : Option (List Char)
  extensions : List (List Char)
  deriving DecidableEq, Repr

/-- `ChordNotation.to_simple`: root alone for plain major, else root ++ quality. -/
def toSimple (n : ChordNotation) : List Char :=
  if n.quality = ['m', 'a', 'j'] then n.root else n.root ++ n.quality

/-- `NOTE_MAPPING.get(note, note)`: dataset sharps `Xs` become `X#`; flats and
naturals map to themselves (as does any unlisted string). -/
def normalizeNote (n : List Char) : List Char :=
  if n = ['C', 's'] then ['C', '#']
  else if n = ['D', 's'] then ['D', '#']
  else if n = ['F', 's'] then ['F', '#']
  else if n = ['G', 's'] then ['G', '#']
  else if n = ['A', 's'] then ['A', '#']
  else n

def noteLetter (c : Char) : Bool :=
  c = 'A' ∨ c = 'B' ∨ c = 'C' ∨ c = 'D' ∨ c = 'E' ∨ c = 'F' ∨ c = 'G'

/-- The root regex `^([A-G][sb]?)` (greedy): the matched token and the
remainder, or `none` when the match fails. -/
def parseRootTok : List Char → Option (List Char × List Char)
  | [] => none
  | c :: rest =>
    if noteLetter c then
      match rest with
      | m :: rest2 =>
        if m = 's' ∨ m = 'b' then some ([c, m], rest2) else some ([c], rest)
      | [] => some ([c], [])
    else none

/-- Boolean string-prefix test (`str.startswith`). -/
def lpre : List Char → List Char → Bool
  | [], _ => true
  | _ :: _, [] => false
  | p :: ps, x :: xs => if p = x then lpre ps xs else false

/-- Boolean substring test (`pat in s`). -/
def hasSub (pat : List Char) : List Char → Bool
  | [] => pat.isEmpty
  | c :: t => lpre pat (c :: t) || hasSub pat t

def lowerL (l : List Char) : List Char := l.map Char.toLower

/-- `'no3d' in quality_str.lower()`. -/
def containsNo3d (q : List Char) : Bool :=
  hasSub ['n', 'o', '3', 'd'] (lowerL q)

/-- `parse_quality` from `chord_normalizer.py`, branch for branch. -/
def parseQuality (q : List Char) : List Char :=
  if q = [] then ['m', 'a', 'j']
  else if containsNo3d q then ['5']
  else if lpre ['m', 'i', 'n'] q then
    let rest := q.drop 3
    if rest = ['7'] then ['m', '7']
    else if rest = ['m', 'a', 'j', '7'] then ['m', 'M', '7']
    else if lpre ['a', 'd', 'd'] rest then 'm' :: rest
    else ['m']
  else if lpre ['d', 'i', 'm'] q then
    if q.drop 3 = ['7'] then ['d', 'i', 'm', '7'] else ['d', 'i', 'm']
  else if lpre ['a', 'u', 'g'] q then ['a', 'u', 'g']
  else if lpre ['s', 'u', 's'] q then q
  else if lpre ['m', 'a', 'j'] q then
    let rest := q.drop 3
    if rest = ['7'] then ['M', '7']
    else if rest = ['9'] then ['M', '9']
    else ['m', 'a', 'j']
  else if q = ['7'] then ['7']
  else if q = ['9'] then ['9']
  else if q = ['1', '1'] then ['1', '1']
  else if q = ['1', '3'] then ['1', '3']
  else if lpre ['a', 'd', 'd'] q then q
  else q

/-- `chord_str.split('/', 1)`: the part before the first `/`, and the part
after it when one exists. -/
def splitSlash : List Char → List Char × Option (List Char)
  | [] => ([], none)
  | c :: t =>
    if c = '/' then ([], some t)
    else
      let r := splitSlash t
      (c :: r.1, r.2)

/-- `parse_chord_components`: `none` models the `ValueError` raised when the
root regex does not match. -/
def parseChordComponents (s : List Char) :
    Option (List Char × List Char × Option (List Char)) :=
  let sp := splitSlash s
  let bass := sp.2.map normalizeNote
  match parseRootTok sp.1 with
  | none => none
  | some (tok, qs) => some (normalizeNote tok, parseQuality qs, bass)

def unknownQ : List Char := ['u', 'n', 'k', 'n', 'o', 'w', 'n']

/-- `normalize_chord`: the `except` branch becomes the sentinel notation. -/
def normalizeChord (s : List Char) : ChordNotation :=
  match parseChordComponents s with
  | some (r, q, b) => ⟨r, q, b, []⟩
  | none => ⟨s, unknownQ, none, []⟩

/-- `normalize_chord_simple` (its `except` arm is dead: `normalize_chord`
always returns). -/
def normalizeChordSimple (s : List Char) : List Char :=
  toSimple (normalizeChord s)

/-- String-typed wrapper used by the recommender layer. -/
def normalizeChordSimpleS (s : String) : String :=
  ⟨normalizeChordSimple s.toList⟩

/-! ### `markov_model.py` — the model store and its queries -/

/-- A genre's table: context key → (next chord → probability). -/
abbrev TransTable := List (String × List (String × List (String × ℚ)))

/-- `TransitionStats` (the `count` field holds Python's `int(...)` result). -/
structure TransitionStats where
  from_chord : String
  to_chord : String
  count : ℤ
  probability : ℚ
  genre : String
  deriving DecidableEq, Repr

/-- `MarkovModel`'s five tables, dicts as insertion-ordered association
lists. -/
structure MarkovModel where
  transitions : TransTable
  bigram_transitions : TransTable
  trigram_transitions : TransTable
  chord_frequencies : List (String × List (String × ℚ))
  genre_totals : List (String × ℕ)
  deriving DecidableEq, Repr

def MarkovModel.empty : MarkovModel := ⟨[], [], [], [], []⟩

def MarkovModel.add_transition (m : MarkovModel)
    (fromChord toChord genre : String) (p : ℚ) : MarkovModel :=
  { m with transitions := upsert3 m.transitions genre fromChord toChord p }

def MarkovModel.add_bigram_transition (m : MarkovModel)
    (contextKey toChord genre : String) (p : ℚ) : MarkovModel :=
  { m with bigram_transitions :=
      upsert3 m.bigram_transitions genre contextKey toChord p }

def MarkovModel.add_trigram_transition (m : MarkovModel)
    (contextKey toChord genre : String) (p : ℚ) : MarkovModel :=
  { m with trigram_transitions :=
      upsert3 m.trigram_transitions genre contextKey toChord p }

def MarkovModel.add_chord_frequency (m : MarkovModel)
    (chord genre : String) (f : ℚ) : MarkovModel :=
  let inner := upsert (getD m.chord_frequencies genre []) chord f
  { m with chord_frequencies := upsert m.chord_frequencies genre inner }

/-- `CONTEXT_SEP.join([a, b])`. -/
def joinSep2 (a b : String) : String := a ++ "|" ++ b

/-- `CONTEXT_SEP.join([a, b, c])`. -/
def joinSep3 (a b c : String) : String := a ++ "|" ++ b ++ "|" ++ c

/-- The filter/build/sort/truncate tail of `get_recommendations`, applied to
the transition dict chosen by the backoff. -/
def finishRecs (m : MarkovModel) (fromLabel genre : String) (topN : ℕ)
    (minProbability : ℚ) (trans : List (String × ℚ)) : List TransitionStats :=
  let total : ℕ := getD m.genre_totals genre 1000
  let results := trans.filterMap fun cp =>
    if minProbability ≤ cp.2 then
      some ⟨fromLabel, cp.1, pyInt (cp.2 * (total : ℚ)), cp.2, genre⟩
    else none
  (sortByDesc (fun r => r.probability) results).take topN

/-- The trigram arm of the backoff: `context` must be truthy with at least
two chords and the joined key present under the genre. -/
def tryTrigram (m : MarkovModel) (currentChord genre : String)
    (context : Option (List String)) : Option (String × List (String × ℚ)) :=
  match context with
  | none => none
  | some ctx =>
    match ctx.reverse with
    | c1 :: c2 :: _ =>
      let key := joinSep3 c2 c1 currentChord
      match alookup m.trigram_transitions genre with
      | some gm => (alookup gm key).map fun t => (key, t)
      | none => none
    | _ => none

/-- The bigram arm of the backoff: at least one context chord and the joined
key present under the genre. -/
def tryBigram (m : MarkovModel) (currentChord genre : String)
    (context : Option (List String)) : Option (String × List (String × ℚ)) :=
  match context with
  | none => none
  | some ctx =>
    match ctx.reverse with
    | c1 :: _ =>
      let key := joinSep2 c1 currentChord
      match alookup m.bigram_transitions genre with
      | some gm => (alookup gm key).map fun t => (key, t)
      | none => none
    | _ => none

/-- `MarkovModel.get_recommendations` with its trigram → bigram → unigram
backoff (an empty `context` list is falsy in Python, hence the `reverse`
pattern matches). -/
def MarkovModel.get_recommendations (m : MarkovModel)
    (currentChord genre : String) (topN : ℕ) (minProbability : ℚ)
    (context : Option (List String)) : List TransitionStats :=
  let chosen :=
    match tryTrigram m currentChord genre context with
    | some r => some r
    | none => tryBigram m currentChord genre context
  match chosen with
  | some lt => finishRecs m lt.1 genre topN minProbability lt.2
  | none =>
    match alookup2 m.transitions genre currentChord with
    | none => []
    | some ts => finishRecs m currentChord genre topN minProbability ts

/-- `get_chord_frequency`: 0.0 for a missing genre or chord. -/
def MarkovModel.get_chord_frequency (m : MarkovModel)
    (chord genre : String) : ℚ :=
  match alookup m.chord_frequencies genre with
  | none => 0
  | some inner => getD inner chord 0

/-- `get_friction_score`. -/
def MarkovModel.get_friction_score (m : MarkovModel)
    (chord genre : String) : ℚ :=
  let freq := m.get_chord_frequency chord genre
  if freq = 0 then 1 else 1 - min (freq * 10) 1

/-! ### `markov_model.py` — serialization -/

/-- The `_prune_transitions` helper of `to_dict`: drop probabilities below
`minExport`, round survivors to `prec` decimal places, drop contexts left
empty, and when `prune` is set keep only the stable-descending top
`maxPer` per context. -/
def pruneTransitions (trans : TransTable) (prune : Bool) (maxPer : ℕ)
    (prec : ℕ) (minExport : ℚ) : TransTable :=
  trans.map fun gc =>
    (gc.1,
      gc.2.filterMap fun kt =>
        let filtered := kt.2.filterMap fun cp =>
          if minExport ≤ cp.2 then some (cp.1, pyRoundPrec cp.2 prec) else none
        if filtered = [] then none
        else if prune ∧ maxPer < filtered.length then
          some (kt.1, (sortByDesc (fun cp => cp.2) filtered).take maxPer)
        else some (kt.1, filtered))

/-- The serialized form built by `to_dict`. -/
structure ModelDict where
  transitions : TransTable
  bigram_transitions : TransTable
  trigram_transitions : TransTable
  chord_frequencies : List (String × List (String × ℚ))
  genre_totals : List (String × ℕ)
  deriving DecidableEq, Repr

/-- `MarkovModel.to_dict` with its default export thresholds
(`max_per_context = 15`, `probability_precision = 4`,
`min_export_probability = 0.005`). -/
def MarkovModel.to_dict (m : MarkovModel) (maxPer prec : ℕ) (minExport : ℚ) :
    ModelDict :=
  ⟨pruneTransitions m.transitions false maxPer prec minExport,
    pruneTransitions m.bigram_transitions true maxPer prec minExport,
    pruneTransitions m.trigram_transitions true maxPer prec minExport,
    m.chord_frequencies,
    m.genre_totals⟩

/-- `MarkovModel.from_dict`: nested loops of `add_*` calls in serialization
order, then direct assignment of `genre_totals`. -/
def MarkovModel.from_dict (d : ModelDict) : MarkovModel :=
  let m0 := d.transitions.foldl (fun m gc =>
    gc.2.foldl (fun m2 kt =>
      kt.2.foldl (fun m3 cp => m3.add_transition kt.1 cp.1 gc.1 cp.2) m2) m)
    MarkovModel.empty
  let m1 := d.bigram_transitions.foldl (fun m gc =>
    gc.2.foldl (fun m2 kt =>
      kt.2.foldl (fun m3 cp => m3.add_bigram_transition kt.1 cp.1 gc.1 cp.2)
        m2) m) m0
  let m2 := d.trigram_transitions.foldl (fun m gc =>
    gc.2.foldl (fun m2 kt =>
      kt.2.foldl (fun m3 cp => m3.add_trigram_transition kt.1 cp.1 gc.1 cp.2)
        m2) m) m1
  let m3 := d.chord_frequencies.foldl (fun m gc =>
    gc.2.foldl (fun m2 cf => m2.add_chord_frequency cf.1 gc.1 cf.2) m) m2
  { m3 with genre_totals := d.genre_totals }

/-! ### `build_markov_model` — training -/

/-- A dataset row: the parsed chord list and the genre label. -/
abbrev Row := List String × String

/-- `d[k] += 1` on a `defaultdict(int)`. -/
def bump {K : Type} [DecidableEq K] (l : List (K × ℕ)) (k : K) :
    List (K × ℕ) :=
  upsert l k (getD l k 0 + 1)

/-- `d[k1][k2] += 1` on a nested counting defaultdict. -/
def bump2 {K : Type} [DecidableEq K] (l : List (K × List (K × ℕ))) (k1 k2 : K) :
    List (K × List (K × ℕ)) :=
  upsert l k1 (bump (getD l k1 []) k2)

/-- `[normalize_fn(c) for c in chord_list]` when a normalizer is given. -/
def applyNf (nf : Option (String → String)) (l : List String) : List String :=
  match nf with
  | some f => l.map f
  | none => l

/-- The per-genre counting accumulators of `build_markov_model`. -/
structure BuildSt where
  transition_counts : List (String × List (String × ℕ))
  from_chord_totals : List (String × ℕ)
  chord_counts : List (String × ℕ)
  total_chords : ℕ
  bigram_counts : List (String × List (String × ℕ))
  bigram_totals : List (String × ℕ)
  trigram_counts : List (String × List (String × ℕ))
  trigram_totals : List (String × ℕ)
  deriving Repr

def BuildSt.empty : BuildSt := ⟨[], [], [], 0, [], [], [], []⟩

/-- One iteration of the `for i in range(len(chord_list) - 1)` loop of
`build_markov_model`: `a`/`b` are `chord_list[i]`/`chord_list[i+1]`, and
`p2`/`p1` carry `chord_list[i-2]`/`chord_list[i-1]` when they exist. -/
def pairStep (p2 p1 : Option String) (a b : String) (st : BuildSt) : BuildSt :=
  let st1 : BuildSt :=
    { st with
      transition_counts := bump2 st.transition_counts a b
      from_chord_totals := bump st.from_chord_totals a
      chord_counts := bump st.chord_counts a
      total_chords := st.total_chords + 1 }
  let st2 : BuildSt :=
    match p1 with
    | some x =>
      { st1 with
        bigram_counts := bump2 st1.bigram_counts (joinSep2 x a) b
        bigram_totals := bump st1.bigram_totals (joinSep2 x a) }
    | none => st1
  match p2, p1 with
  | some y, some x =>
    { st2 with
      trigram_counts := bump2 st2.trigram_counts (joinSep3 y x a) b
      trigram_totals := bump st2.trigram_totals (joinSep3 y x a) }
  | _, _ => st2

/-- The whole transition-counting loop over one progression. -/
def pairLoop (p2 p1 : Option String) : List String → BuildSt → BuildSt
  | a :: b :: rest, st => pairLoop p1 (some a) (b :: rest) (pairStep p2 p1 a b st)
  | _, st => st

/-- One progression of the counting pass: progressions with fewer than two
chords are skipped; afterwards the last chord is counted once more. -/
def processProg (nf : Option (String → String)) (st : BuildSt)
    (l : List String) : BuildSt :=
  if l.length < 2 then st
  else
    let l' := applyNf nf l
    let st' := pairLoop none none l' st
    match l'.getLast? with
    | some lastChord =>
      { st' with
        chord_counts := bump st'.chord_counts lastChord
        total_chords := st'.total_chords + 1 }
    | none => st'

/-- `df[genre_column].value_counts()[genre]`. -/
def genreCount (rows : List Row) (g : String) : ℕ :=
  (rows.filter fun r => r.2 = g).length

/-- The distinct genre labels in first-appearance order. -/
def uniqueGenres (rows : List Row) : List String :=
  rows.foldl (fun acc r => if r.2 ∈ acc then acc else acc ++ [r.2]) []

/-- `value_counts()[counts >= min_genre_size].index`: genres with enough
progressions, in descending progression-count order. -/
def validGenres (rows : List Row) (minGenreSize : ℕ) : List String :=
  sortByDesc (fun g => genreCount rows g)
    ((uniqueGenres rows).filter fun g => minGenreSize ≤ genreCount rows g)

/-- `genre_df[chord_column]`: the progressions carrying genre `g`, in
dataset order. -/
def genreProgs (rows : List Row) (g : String) : List (List String) :=
  (rows.filter fun r => r.2 = g).map Prod.fst

/-- The accumulated counts after the per-genre counting pass. -/
def genreSt (rows : List Row) (nf : Option (String → String)) (g : String) :
    BuildSt :=
  (genreProgs rows g).foldl (processProg nf) BuildSt.empty

/-- The per-genre half of `build_markov_model`: run the counting pass over
the genre's progressions, then turn counts into probabilities (orders 2/3
only for contexts meeting the minimum counts), chord frequencies and the
genre total. -/
def buildGenre (rows : List Row) (nf : Option (String → String))
    (minBigramCount minTrigramCount : ℕ) (model : MarkovModel) (g : String) :
    MarkovModel :=
  let genreDf := genreProgs rows g
  let st := genreSt rows nf g
  let m1 := st.transition_counts.foldl (fun m fc =>
    let total := getD st.from_chord_totals fc.1 0
    fc.2.foldl (fun m2 tc =>
      m2.add_transition fc.1 tc.1 g ((tc.2 : ℚ) / (total : ℚ))) m) model
  let m2 := st.bigram_counts.foldl (fun m kc =>
    let total := getD st.bigram_totals kc.1 0
    if total < minBigramCount then m
    else kc.2.foldl (fun mm tc =>
      mm.add_bigram_transition kc.1 tc.1 g ((tc.2 : ℚ) / (total : ℚ))) m) m1
  let m3 := st.trigram_counts.foldl (fun m kc =>
    let total := getD st.trigram_totals kc.1 0
    if total < minTrigramCount then m
    else kc.2.foldl (fun mm tc =>
      mm.add_trigram_transition kc.1 tc.1 g ((tc.2 : ℚ) / (total : ℚ))) m) m2
  let m4 := st.chord_counts.foldl (fun m cc =>
    m.add_chord_frequency cc.1 g
      (if 0 < st.total_chords then (cc.2 : ℚ) / (st.total_chords : ℚ) else 0))
    m3
  { m4 with genre_totals := upsert m4.genre_totals g genreDf.length }

/-- `build_markov_model` over the whole dataset. -/
def buildMarkovModel (rows : List Row) (nf : Option (String → String))
    (minGenreSize minBigramCount minTrigramCount : ℕ) : MarkovModel :=
  (validGenres rows minGenreSize).foldl
    (buildGenre rows nf minBigramCount minTrigramCount) MarkovModel.empty

/-! ### `pattern_extractor.py` -/

/-- `ChordPattern`. -/
structure ChordPattern where
  chords : List String
  count : ℕ
  frequency : ℚ
  genre : String
  deriving DecidableEq, Repr

/-- `PatternMiner.patterns`: genre → pattern length → patterns in insertion
order. -/
abbrev PatternMiner := List (String × List (ℕ × List ChordPattern))

/-- `PatternMiner.add_pattern`: append under the pattern's genre and length. -/
def addPattern (m : PatternMiner) (p : ChordPattern) : PatternMiner :=
  let inner := getD m p.genre []
  let lst := getD inner p.chords.length []
  upsert m p.genre (upsert inner p.chords.length (lst ++ [p]))

/-- The per-genre, per-length mining loop: counts of every length-`len`
window over the genre's progressions (first-encounter order) and the total
number of windows. -/
def minePatternCounts (progs : List (List String))
    (nf : Option (String → String)) (len : ℕ) :
    List (List String × ℕ) × ℕ :=
  progs.foldl (fun acc l =>
    if l.length < len then acc
    else
      let l' := applyNf nf l
      (List.range (l'.length - len + 1)).foldl
        (fun acc2 i => (bump acc2.1 ((l'.drop i).take len), acc2.2 + 1)) acc)
    ([], 0)

/-- `Counter.most_common(top_n)` followed by the `ChordPattern` build:
stable count-descending order, truncated, with
`frequency = count / total` (0 when no window was seen). -/
def topPatterns (counts : List (List String × ℕ)) (total : ℕ) (topN : ℕ)
    (g : String) : List ChordPattern :=
  ((sortByDesc (fun pc => pc.2) counts).take topN).map fun pc =>
    ⟨pc.1, pc.2, if 0 < total then (pc.2 : ℚ) / (total : ℚ) else 0, g⟩

/-- `extract_patterns`. -/
def extractPatterns (rows : List Row) (nf : Option (String → String))
    (patternLengths : List ℕ) (minGenreSize topNPerLength : ℕ) :
    PatternMiner :=
  (validGenres rows minGenreSize).foldl (fun miner g =>
    let progs := (rows.filter fun r => r.2 = g).map Prod.fst
    patternLengths.foldl (fun mi len =>
      let ct := minePatternCounts progs nf len
      (topPatterns ct.1 ct.2 topNPerLength g).foldl addPattern mi) miner) []

/-! ### `recommender.py` -/

/-- `Recommendation`. -/
structure Recommendation where
  chord : String
  probability : ℚ
  category : String
  friction_score : ℚ
  count : ℤ
  deriving DecidableEq, Repr

/-- `ChordRecommender._categorize`, in evaluation order. -/
def categorize (probability friction : ℚ) : String :=
  if 1/20 < probability ∧ friction < 3/10 then "common"
  else if probability < 1/100 ∨ 7/10 < friction then "adventurous"
  else "interesting"

/-- `ChordRecommender.get_recommendations` (loaded-model state elided: the
Markov model is passed directly; patterns are not consulted here). -/
def recGetRecommendations (markov : MarkovModel) (currentChord genre : String)
    (topN : ℕ) (normalize : Bool) : List Recommendation :=
  let cur := if normalize then normalizeChordSimpleS currentChord
             else currentChord
  let markovRecs := markov.get_recommendations cur genre (topN * 2) (1/1000)
    none
  let recommendations := markovRecs.map fun r =>
    let friction := markov.get_friction_score r.to_chord genre
    ⟨r.to_chord, r.probability, categorize r.probability friction, friction,
      r.count⟩
  recommendations.take topN

/-- The record returned by `ChordRecommender.get_chord_stats`. -/
structure ChordStatsResult where
  chord : String
  genre : String
  frequency : ℚ
  friction_score : ℚ
  category : String
  deriving DecidableEq, Repr

/-- `ChordRecommender.get_chord_stats`. -/
def recGetChordStats (markov : MarkovModel) (chord genre : String)
    (normalize : Bool) : ChordStatsResult :=
  let c := if normalize then normalizeChordSimpleS chord else chord
  let frequency := markov.get_chord_frequency c genre
  let friction := markov.get_friction_score c genre
  ⟨c, genre, frequency, friction,
    if friction < 3/10 then "common"
    else if 7/10 < friction then "adventurous"
    else "interesting"⟩

/-! ### Statement-side definitions -/

/-- The order-3 key `get_recommendations` would consult for a given context
(`""` when the context is too short for one to be formed). -/
def trigramKey (ctx : List String) (currentChord : String) : String :=
  match ctx.reverse with
  | c1 :: c2 :: _ => joinSep3 c2 c1 currentChord
  | _ => ""

/-- The order-2 key `get_recommendations` would consult for a given context
(`""` when the context is empty). -/
def bigramKey (ctx : List String) (currentChord : String) : String :=
  match ctx.reverse with
  | c1 :: _ => joinSep2 c1 currentChord
  | _ => ""

/-- Occurrences of chord `c` over the progressions the training pass
actually consumes: those with at least two chords, after optional
normalization. -/
def occCount (progs : List (List String)) (nf : Option (String → String))
    (c : String) : ℕ :=
  (progs.map fun l =>
    if l.length < 2 then 0 else (applyNf nf l).count c).sum

/-- Total chord occurrences the training pass consumes for a genre. -/
def totalOcc (progs : List (List String)) (nf : Option (String → String)) :
    ℕ :=
  (progs.map fun l => if l.length < 2 then 0 else l.length).sum

/-- Distinct keys at both levels of a two-level table (what being a Python
dict guarantees). -/
def NodupKeys2 {V : Type} (l : List (String × List (String × V))) : Prop :=
  (akeys l).Nodup ∧ ∀ p ∈ l, (akeys p.2).Nodup

/-- Distinct keys at all three levels of a transition table. -/
def NodupKeys3 (l : TransTable) : Prop :=
  (akeys l).Nodup ∧ ∀ p ∈ l, (akeys p.2).Nodup ∧ ∀ q ∈ p.2, (akeys q.2).Nodup

/-- A model whose tables are genuine dicts: keys are distinct at every
nesting level. Every model the trainer or loader produces satisfies this. -/
def MarkovModel.WellFormed (m : MarkovModel) : Prop :=
  NodupKeys3 m.transitions ∧ NodupKeys3 m.bigram_transitions ∧
    NodupKeys3 m.trigram_transitions ∧ NodupKeys2 m.chord_frequencies ∧
    (akeys m.genre_totals).Nodup

/-! ### Concrete instances used by witnesses and counterexamples -/

/-- The spec's training scenario: genre "pop" with three progressions. -/
def popRows : List Row :=
  [(["C", "G", "Am", "F"], "pop"), (["C", "G", "C"], "pop"),
    (["C", "F", "C"], "pop")]

/-- The model trained on `popRows` with `min_genre_size = 1` (and the
builder's default order-2/3 thresholds). -/
def popModel : MarkovModel := buildMarkovModel popRows none 1 3 2

/-- A dataset whose only progression has a single chord. -/
def shortRows : List Row := [(["C"], "pop")]

/-- A small hand-built model (one genre, order-1 data only). -/
def exModel : MarkovModel :=
  ⟨[("pop", [("C", [("G", 9/10), ("F", 1/10)])])], [], [],
    [("pop", [("C", 1/2), ("G", 9/20)])], [("pop", 1)]⟩

/-- A model with an order-1 probability (1/250 = 0.004) below the default
`min_export_probability` of 0.005. -/
def lowProbModel : MarkovModel :=
  ⟨[("pop", [("C", [("G", 249/250), ("F", 1/250)])])], [], [], [],
    [("pop", 10)]⟩

/-! ## Lemmas about the association-list primitives -/

theorem alookup_eq_none {K V : Type} [DecidableEq K] {l : List (K × V)}
    {k : K} : alookup l k = none ↔ k ∉ akeys l := by
  induction l with
  | nil => simp [alookup, akeys]
  | cons p t ih =>
    obtain ⟨k', v⟩ := p
    by_cases h : k' = k
    · subst h
      simp [alookup, akeys]
    · simp [alookup, akeys, h, ih, Ne.symm h]

theorem alookup_append_of_notMem {K V : Type} [DecidableEq K]
    {l : List (K × V)} (r : List (K × V)) {k : K} (h : k ∉ akeys l) :
    alookup (l ++ r) k = alookup r k := by
  induction l with
  | nil => simp
  | cons p t ih =>
    obtain ⟨a, b⟩ := p
    simp only [akeys, List.map_cons, List.mem_cons] at h
    push_neg at h
    have ha : a ≠ k := Ne.symm h.1
    simpa [alookup, ha] using ih (by simp [akeys, h.2])

theorem alookup_append_left {K V : Type} [DecidableEq K]
    {l : List (K × V)} (r : List (K × V)) {k : K} (h : k ∈ akeys l) :
    alookup (l ++ r) k = alookup l k := by
  induction l with
  | nil => simp [akeys] at h
  | cons p t ih =>
    by_cases hk : p.1 = k
    · obtain ⟨k', v⟩ := p
      simp only at hk
      subst hk
      simp [alookup]
    · obtain ⟨k', v⟩ := p
      simp only at hk
      simp only [akeys, List.map_cons, List.mem_cons] at h
      rcases h with h | h
      · exact absurd h.symm hk
      · simpa [alookup, hk] using ih (by simpa [akeys] using h)

theorem upsert_of_notMem {K V : Type} [DecidableEq K] {l : List (K × V)}
    {k : K} (v : V) (h : k ∉ akeys l) : upsert l k v = l ++ [(k, v)] := by
  induction l with
  | nil => simp [upsert]
  | cons p t ih =>
    simp only [akeys, List.map_cons, List.mem_cons] at h
    push_neg at h
    simp [upsert, Ne.symm h.1, ih (by simp [akeys, h.2])]

theorem upsert_last {K V : Type} [DecidableEq K] {t : List (K × V)} {g : K}
    (v' v : V) (h : g ∉ akeys t) :
    upsert (t ++ [(g, v')]) g v = t ++ [(g, v)] := by
  induction t with
  | nil => simp [upsert]
  | cons p r ih =>
    simp only [akeys, List.map_cons, List.mem_cons] at h
    push_neg at h
    simp [upsert, Ne.symm h.1, ih (by simp [akeys, h.2])]

theorem alookup_upsert_ne {K V : Type} [DecidableEq K] {l : List (K × V)}
    {k k' : K} (v : V) (h : k' ≠ k) :
    alookup (upsert l k v) k' = alookup l k' := by
  induction l with
  | nil => simp [upsert, alookup, Ne.symm h]
  | cons p t ih =>
    by_cases hk : p.1 = k
    · obtain ⟨a, b⟩ := p
      simp only at hk
      subst hk
      simp [upsert, alookup, Ne.symm h]
    · obtain ⟨a, b⟩ := p
      simp only at hk
      simp [upsert, alookup, hk, ih]

theorem alookup_upsert_self {K V : Type} [DecidableEq K] {l : List (K × V)}
    {k : K} (v : V) : alookup (upsert l k v) k = some v := by
  induction l with
  | nil => simp [upsert, alookup]
  | cons p t ih =>
    by_cases hk : p.1 = k
    · obtain ⟨a, b⟩ := p
      simp only at hk
      subst hk
      simp [upsert, alookup]
    · obtain ⟨a, b⟩ := p
      simp only at hk
      simp [upsert, alookup, hk, ih]

theorem akeys_upsert {K V : Type} [DecidableEq K] (l : List (K × V)) (k : K)
    (v : V) :
    akeys (upsert l k v) = if k ∈ akeys l then akeys l else akeys l ++ [k] := by
  induction l with
  | nil => simp [upsert, akeys]
  | cons p t ih =>
    obtain ⟨a, b⟩ := p
    by_cases hk : a = k
    · subst hk
      simp [upsert, akeys]
    · have : akeys (upsert ((a, b) :: t) k v) = a :: akeys (upsert t k v) := by
        simp [upsert, hk, akeys]
      rw [this, ih]
      have hcons : akeys ((a, b) :: t) = a :: akeys t := rfl
      rw [hcons]
      by_cases hm : k ∈ akeys t
      · rw [if_pos hm, if_pos (List.mem_cons_of_mem a hm)]
      · have hnc : k ∉ a :: akeys t := by
          intro hc
          rcases List.mem_cons.mp hc with hc | hc
          · exact hk hc.symm
          · exact hm hc
        rw [if_neg hm, if_neg hnc, List.cons_append]

theorem mem_upsert {K V : Type} [DecidableEq K] {l : List (K × V)} {k : K}
    {v : V} {x : K × V} (h : x ∈ upsert l k v) : x ∈ l ∨ x.2 = v := by
  induction l with
  | nil =>
    simp only [upsert, List.mem_singleton] at h
    subst h
    exact Or.inr rfl
  | cons p t ih =>
    obtain ⟨a, b⟩ := p
    by_cases hk : a = k
    · have hu : upsert ((a, b) :: t) k v = (a, v) :: t := by
        simp [upsert, hk]
      rw [hu, List.mem_cons] at h
      rcases h with h | h
      · subst h
        exact Or.inr rfl
      · exact Or.inl (List.mem_cons_of_mem _ h)
    · simp only [upsert, if_neg hk, List.mem_cons] at h
      rcases h with h | h
      · subst h
        exact Or.inl (List.mem_cons_self _ _)
      · rcases ih h with h' | h'
        · exact Or.inl (List.mem_cons_of_mem _ h')
        · exact Or.inr h'

/-! ## Lemmas about the stable sort -/

theorem insertByDesc_perm {α β : Type} [LinearOrder β] (key : α → β) (x : α)
    (l : List α) : List.Perm (insertByDesc key x l) (x :: l) := by
  induction l with
  | nil => exact List.Perm.refl _
  | cons y t ih =>
    by_cases h : key x ≤ key y
    · have h1 : insertByDesc key x (y :: t) = y :: insertByDesc key x t := by
        simp [insertByDesc, h]
      rw [h1]
      exact (ih.cons y).trans (List.Perm.swap x y t)
    · simp [insertByDesc, h]

theorem sortByDesc_perm {α β : Type} [LinearOrder β] (key : α → β)
    (l : List α) : List.Perm (sortByDesc key l) l := by
  suffices h : ∀ (l acc : List α),
      List.Perm (l.foldl (fun a x => insertByDesc key x a) acc) (acc ++ l) by
    simpa using h l []
  intro l
  induction l with
  | nil => intro acc; simp
  | cons x t ih =>
    intro acc
    have h1 : (x :: t).foldl (fun a y => insertByDesc key y a) acc
        = t.foldl (fun a y => insertByDesc key y a) (insertByDesc key x acc) :=
      rfl
    rw [h1]
    have h2 := (ih (insertByDesc key x acc)).trans
      ((insertByDesc_perm key x acc).append_right t)
    refine h2.trans ?_
    have h3 : List.Perm (x :: (acc ++ t)) (acc ++ x :: t) :=
      List.perm_middle.symm
    simpa using h3

theorem mem_sortByDesc {α β : Type} [LinearOrder β] {key : α → β}
    {l : List α} {x : α} (h : x ∈ sortByDesc key l) : x ∈ l :=
  (sortByDesc_perm key l).mem_iff.mp h

/-! ## C6: the `count` field of a recommendation -/

theorem mem_finishRecs {m : MarkovModel} {label genre : String} {topN : ℕ}
    {minP : ℚ} {ts : List (String × ℚ)} {r : TransitionStats}
    (h : r ∈ finishRecs m label genre topN minP ts) :
    r.count =
      pyInt (r.probability * ((getD m.genre_totals genre 1000 : ℕ) : ℚ)) := by
  have h1 := List.take_subset _ _ h
  have h2 := mem_sortByDesc h1
  simp only [finishRecs, List.mem_filterMap] at h2
  obtain ⟨cp, _, hcp⟩ := h2
  by_cases hge : minP ≤ cp.2
  · rw [if_pos hge] at hcp
    obtain rfl := Option.some.inj hcp
    rfl
  · rw [if_neg hge] at hcp
    exact absurd hcp (by simp)

/-- C6 (amended): every entry returned by `get_recommendations` has its
`count` field equal to Python's `int(...)` truncation — not `round` — of
probability × the stored genre total (1000 when the genre has no stored
total). -/
theorem c6_count_is_truncation (m : MarkovModel) (cur g : String) (topN : ℕ)
    (minP : ℚ) (ctx : Option (List String)) (r : TransitionStats)
    (h : r ∈ m.get_recommendations cur g topN minP ctx) :
    r.count =
      pyInt (r.probability * ((getD m.genre_totals g 1000 : ℕ) : ℚ)) := by
  simp only [MarkovModel.get_recommendations] at h
  cases E1 : tryTrigram m cur g ctx with
  | some lt =>
    rw [E1] at h
    exact mem_finishRecs h
  | none =>
    rw [E1] at h
    cases E2 : tryBigram m cur g ctx with
    | some lt =>
      rw [E2] at h
      exact mem_finishRecs h
    | none =>
      rw [E2] at h
      cases E3 : alookup2 m.transitions g cur with
      | some ts =>
        rw [E3] at h
        exact mem_finishRecs h
      | none =>
        rw [E3] at h
        simp at h

/-- Witness for `c6_count_is_truncation` at a concrete model and query. -/
theorem c6_count_is_truncation_witness :
    (⟨"C", "G", 0, 9/10, "pop"⟩ : TransitionStats) ∈
        exModel.get_recommendations "C" "pop" 10 (1/1000) none ∧
      (0 : ℤ) = pyInt ((9/10 : ℚ) * ((getD exModel.genre_totals "pop" 1000 : ℕ) : ℚ)) :=
  ⟨by with_unfolding_all decide,
    c6_count_is_truncation exModel "C" "pop" 10 (1/1000) none
      ⟨"C", "G", 0, 9/10, "pop"⟩ (by with_unfolding_all decide)⟩

/-- C6 counterexample: on a model with `P(G|C) = 0.9` and genre total 1 the
returned `count` is `int(0.9) = 0`, while `round(0.9 × 1) = 1`: the claim's
`round` formula does not describe the code. -/
theorem c6_counterexample :
    exModel.get_recommendations "C" "pop" 10 (1/1000) none =
        [⟨"C", "G", 0, 9/10, "pop"⟩, ⟨"C", "F", 0, 1/10, "pop"⟩] ∧
      pyRound ((9/10 : ℚ) * ((getD exModel.genre_totals "pop" 1000 : ℕ) : ℚ)) = 1 ∧
      (0 : ℤ) ≠ 1 := by
  exact ⟨by with_unfolding_all decide, by with_unfolding_all decide,
    by decide⟩

/-! ## C7: friction-score formula and monotonicity -/

/-- C7: `get_friction_score` is 1 at frequency 0 and otherwise
`max(0, 1 − min(frequency×10, 1))`, and it is antitone in the chord's
frequency within a genre. -/
theorem c7_friction_formula_and_antitone (m : MarkovModel) :
    (∀ c g, m.get_friction_score c g =
      if m.get_chord_frequency c g = 0 then 1
      else max 0 (1 - min (m.get_chord_frequency c g * 10) 1)) ∧
    (∀ g c1 c2, m.get_chord_frequency c1 g < m.get_chord_frequency c2 g →
      m.get_friction_score c2 g ≤ m.get_friction_score c1 g) := by
  have hformula : ∀ c g, m.get_friction_score c g =
      if m.get_chord_frequency c g = 0 then 1
      else max 0 (1 - min (m.get_chord_frequency c g * 10) 1) := by
    intro c g
    unfold MarkovModel.get_friction_score
    by_cases h : m.get_chord_frequency c g = 0
    · simp [h]
    · rw [if_neg h, if_neg h]
      have h1 : min (m.get_chord_frequency c g * 10) 1 ≤ 1 := min_le_right _ _
      rw [max_eq_right (by linarith)]
  refine ⟨hformula, ?_⟩
  intro g c1 c2 hlt
  unfold MarkovModel.get_friction_score
  set f1 := m.get_chord_frequency c1 g with hf1
  set f2 := m.get_chord_frequency c2 g with hf2
  by_cases h1 : f1 = 0
  · rw [if_pos h1]
    by_cases h2 : f2 = 0
    · rw [if_pos h2]
    · rw [if_neg h2]
      have : (0 : ℚ) ≤ min (f2 * 10) 1 := by
        have : (0 : ℚ) < f2 := by rw [h1] at hlt; exact hlt
        exact le_min (by linarith) (by norm_num)
      linarith
  · rw [if_neg h1]
    by_cases h2 : f2 = 0
    · rw [if_pos h2]
      have hneg : f1 < 0 := by rw [h2] at hlt; exact hlt
      have : min (f1 * 10) 1 ≤ f1 * 10 := min_le_left _ _
      linarith
    · rw [if_neg h2]
      have : min (f1 * 10) 1 ≤ min (f2 * 10) 1 :=
        min_le_min (by linarith) le_rfl
      linarith

/-- Witness for `c7_friction_formula_and_antitone`: in `exModel`'s "pop"
table, `freq(G) = 9/20 < 1/2 = freq(C)`, so `friction(C) ≤ friction(G)`. -/
theorem c7_friction_witness :
    exModel.get_chord_frequency "G" "pop" < exModel.get_chord_frequency "C" "pop" ∧
      exModel.get_friction_score "C" "pop" ≤ exModel.get_friction_score "G" "pop" :=
  ⟨by with_unfolding_all decide,
    (c7_friction_formula_and_antitone exModel).2 "pop" "G" "C"
      (by with_unfolding_all decide)⟩

/-! ## C9: soft failure of the normalizer -/

/-- C9: when the root regex fails on the pre-slash part of the input,
`normalize_chord` returns the sentinel notation (raw input as root, quality
"unknown", no bass, no extensions) instead of propagating the error. -/
theorem c9_sentinel_on_unparseable_root (s : List Char)
    (h : parseRootTok (splitSlash s).1 = none) :
    normalizeChord s = ⟨s, unknownQ, none, []⟩ := by
  unfold normalizeChord parseChordComponents
  simp only [h]

/-- Witness for `c9_sentinel_on_unparseable_root` at input `"xG"`. -/
theorem c9_sentinel_witness :
    parseRootTok (splitSlash ['x', 'G']).1 = none ∧
      normalizeChord ['x', 'G'] = ⟨['x', 'G'], unknownQ, none, []⟩ :=
  ⟨by decide, c9_sentinel_on_unparseable_root ['x', 'G'] (by decide)⟩

/-! ## C3: backoff through the context orders -/

theorem tryTrigram_eq_none {m : MarkovModel} {cur g : String}
    {ctx : List String}
    (h : alookup2 m.trigram_transitions g (trigramKey ctx cur) = none) :
    tryTrigram m cur g (some ctx) = none := by
  unfold trigramKey alookup2 at h
  cases hr : ctx.reverse with
  | nil => simp only [tryTrigram, hr]
  | cons c1 rest =>
    cases rest with
    | nil => simp only [tryTrigram, hr]
    | cons c2 rest2 =>
      rw [hr] at h
      simp only [tryTrigram, hr]
      cases ha : alookup m.trigram_transitions g with
      | none => rfl
      | some gm =>
        rw [ha] at h
        have h' : alookup gm (joinSep3 c2 c1 cur) = none := by simpa using h
        simp [h']

theorem tryBigram_eq_none {m : MarkovModel} {cur g : String}
    {ctx : List String}
    (h : alookup2 m.bigram_transitions g (bigramKey ctx cur) = none) :
    tryBigram m cur g (some ctx) = none := by
  unfold bigramKey alookup2 at h
  cases hr : ctx.reverse with
  | nil => simp only [tryBigram, hr]
  | cons c1 rest =>
    rw [hr] at h
    simp only [tryBigram, hr]
    cases ha : alookup m.bigram_transitions g with
    | none => rfl
    | some gm =>
      rw [ha] at h
      have h' : alookup gm (joinSep2 c1 cur) = none := by simpa using h
      simp [h']

/-- C3: when the genre's trigram table has no entry for the order-3 key and
the bigram table none for the order-2 key, a contextual query returns
exactly the result of the context-free (order-1) query; when the genre or
the current chord is additionally absent from the order-1 table, the
result is empty. -/
theorem c3_backoff_falls_through (m : MarkovModel) (cur g : String)
    (topN : ℕ) (minP : ℚ) (ctx : List String)
    (h3 : alookup2 m.trigram_transitions g (trigramKey ctx cur) = none)
    (h2 : alookup2 m.bigram_transitions g (bigramKey ctx cur) = none) :
    m.get_recommendations cur g topN minP (some ctx) =
        m.get_recommendations cur g topN minP none ∧
      (alookup2 m.transitions g cur = none →
        m.get_recommendations cur g topN minP (some ctx) = []) := by
  have ht := tryTrigram_eq_none h3
  have hb := tryBigram_eq_none h2
  constructor
  · unfold MarkovModel.get_recommendations
    rw [ht, hb]
    rfl
  · intro h1
    unfold MarkovModel.get_recommendations
    rw [ht, hb, h1]

/-- Witness for `c3_backoff_falls_through`: `exModel` has no order-2/3 data
at all, so a query for "C" with context `["G", "Am"]` matches the plain
query, and an absent genre yields `[]`. -/
theorem c3_backoff_witness :
    alookup2 exModel.trigram_transitions "pop"
        (trigramKey ["G", "Am"] "C") = none ∧
      alookup2 exModel.bigram_transitions "pop"
        (bigramKey ["G", "Am"] "C") = none ∧
      exModel.get_recommendations "C" "pop" 10 (1/1000) (some ["G", "Am"]) =
        exModel.get_recommendations "C" "pop" 10 (1/1000) none ∧
      alookup2 exModel.transitions "rock" "C" = none ∧
      exModel.get_recommendations "C" "rock" 10 (1/1000)
        (some ["G", "Am"]) = [] := by
  refine ⟨by decide, by decide, ?_, by decide, ?_⟩
  · exact (c3_backoff_falls_through exModel "C" "pop" 10 (1/1000) ["G", "Am"]
      (by decide) (by decide)).1
  · exact (c3_backoff_falls_through exModel "C" "rock" 10 (1/1000)
      ["G", "Am"] (by decide) (by decide)).2 (by decide)

/-! ## C8: recommendation categorization -/

/-- C8: every recommendation the recommender returns is categorized by the
ordered rule (probability > 0.05 ∧ friction < 0.3 → "common"; else
probability < 0.01 ∨ friction > 0.7 → "adventurous"; else "interesting"),
and `get_chord_stats` uses the friction-only thresholds. -/
theorem c8_categorization (markov : MarkovModel) (cur g : String)
    (topN : ℕ) (norm : Bool) :
    (∀ r ∈ recGetRecommendations markov cur g topN norm,
      r.category =
        if 1/20 < r.probability ∧ r.friction_score < 3/10 then "common"
        else if r.probability < 1/100 ∨ 7/10 < r.friction_score then
          "adventurous"
        else "interesting") ∧
    (recGetChordStats markov cur g norm).category =
      (if markov.get_friction_score
          (if norm then normalizeChordSimpleS cur else cur) g < 3/10 then
        "common"
      else if 7/10 < markov.get_friction_score
          (if norm then normalizeChordSimpleS cur else cur) g then
        "adventurous"
      else "interesting") := by
  constructor
  · intro r hr
    have h1 := List.take_subset _ _ hr
    simp only [recGetRecommendations, List.mem_map] at h1
    obtain ⟨t, _, ht⟩ := h1
    subst ht
    rfl
  · rfl

/-- Witness for `c8_categorization`: the top recommendation for "C" in
`exModel` is categorized "common" by the rule, and the chord-stats record
for "C" uses the friction-only rule. -/
theorem c8_categorization_witness :
    (⟨"G", 9/10, "common", 0, 0⟩ : Recommendation) ∈
        recGetRecommendations exModel "C" "pop" 5 false ∧
      ("common" : String) =
        (if (1:ℚ)/20 < 9/10 ∧ (0:ℚ) < 3/10 then "common"
         else if (9:ℚ)/10 < 1/100 ∨ (7:ℚ)/10 < 0 then "adventurous"
         else "interesting") ∧
      (recGetChordStats exModel "C" "pop" false).category = "common" := by
  refine ⟨by with_unfolding_all decide, ?_, ?_⟩
  · have h := (c8_categorization exModel "C" "pop" 5 false).1
      ⟨"G", 9/10, "common", 0, 0⟩ (by with_unfolding_all decide)
    simpa using h
  · have h := (c8_categorization exModel "C" "pop" 5 false).2
    rw [h]
    with_unfolding_all decide

/-! ## C1: the concrete order-1 training scenario -/

/-- C1 counterexample: trained on the spec's three "pop" progressions, the
order-1 probability of C→G is 2/3, not the claimed 2/4 (C is the source of
only three transition events: C→G, C→G, C→F). -/
theorem c1_counterexample :
    alookup3 popModel.transitions "pop" "C" "G" = some (2/3) ∧
      ((2 : ℚ)/3 ≠ 2/4) := by
  with_unfolding_all decide

/-- C1 (amended): in the trained model the distribution for source chord
"C" in "pop" holds G with probability 2/3 and F with probability 1/3 — the
divisor is the 3 C-outgoing transition events, not 4. -/
theorem c1_order1_distribution :
    alookup3 popModel.transitions "pop" "C" "G" = some (2/3) ∧
      alookup3 popModel.transitions "pop" "C" "F" = some (1/3) := by
  with_unfolding_all decide

/-! ## C10: the concrete pattern-mining scenario -/

/-- C10: mining length-2 patterns over the same data keeps ("C","G") with
count 2 ranked first, above every count-1 pattern, with the count-1
patterns following in first-encountered order (the stable ranking). -/
theorem c10_pattern_ranking :
    alookup (getD (extractPatterns popRows none [2] 1 100) "pop" []) 2 =
      some [⟨["C", "G"], 2, 2/7, "pop"⟩, ⟨["G", "Am"], 1, 1/7, "pop"⟩,
        ⟨["Am", "F"], 1, 1/7, "pop"⟩, ⟨["G", "C"], 1, 1/7, "pop"⟩,
        ⟨["C", "F"], 1, 1/7, "pop"⟩, ⟨["F", "C"], 1, 1/7, "pop"⟩] := by
  with_unfolding_all decide

/-! ## C5: chord-frequency accounting in the training pass -/

theorem getD_bump (l : List (String × ℕ)) (k c : String) :
    getD (bump l k) c 0 = getD l c 0 + if k = c then 1 else 0 := by
  unfold bump getD
  by_cases h : k = c
  · subst h
    rw [alookup_upsert_self]
    simp
  · rw [alookup_upsert_ne _ (Ne.symm h)]
    simp [h]

theorem pairStep_chord_counts (p2 p1 : Option String) (a b : String)
    (st : BuildSt) :
    (pairStep p2 p1 a b st).chord_counts = bump st.chord_counts a := by
  cases p2 <;> cases p1 <;> rfl

theorem pairStep_total_chords (p2 p1 : Option String) (a b : String)
    (st : BuildSt) :
    (pairStep p2 p1 a b st).total_chords = st.total_chords + 1 := by
  cases p2 <;> cases p1 <;> rfl

theorem pairLoop_chord_counts (c : String) :
    ∀ (l : List String) (p2 p1 : Option String) (st : BuildSt),
      getD (pairLoop p2 p1 l st).chord_counts c 0 =
        getD st.chord_counts c 0 + l.dropLast.count c
  | [], _, _, st => by simp [pairLoop]
  | [a], _, _, st => by simp [pairLoop]
  | a :: b :: rest, p2, p1, st => by
    have hrec : pairLoop p2 p1 (a :: b :: rest) st =
        pairLoop p1 (some a) (b :: rest) (pairStep p2 p1 a b st) := rfl
    rw [hrec, pairLoop_chord_counts c (b :: rest), pairStep_chord_counts,
      getD_bump]
    have hdl : (a :: b :: rest).dropLast = a :: (b :: rest).dropLast := rfl
    rw [hdl]
    simp only [List.count_cons, beq_iff_eq]
    omega

theorem pairLoop_total_chords :
    ∀ (l : List String) (p2 p1 : Option String) (st : BuildSt),
      (pairLoop p2 p1 l st).total_chords = st.total_chords + (l.length - 1)
  | [], _, _, st => by simp [pairLoop]
  | [a], _, _, st => by simp [pairLoop]
  | a :: b :: rest, p2, p1, st => by
    have hrec : pairLoop p2 p1 (a :: b :: rest) st =
        pairLoop p1 (some a) (b :: rest) (pairStep p2 p1 a b st) := rfl
    rw [hrec, pairLoop_total_chords (b :: rest), pairStep_total_chords]
    simp
    omega

theorem processProg_chord_counts (nf : Option (String → String))
    (st : BuildSt) (l : List String) (c : String) :
    getD (processProg nf st l).chord_counts c 0 =
      getD st.chord_counts c 0 +
        if l.length < 2 then 0 else (applyNf nf l).count c := by
  unfold processProg
  by_cases hl : l.length < 2
  · simp [hl]
  · rw [if_neg hl, if_neg hl]
    have hne : applyNf nf l ≠ [] := by
      have hlen : (applyNf nf l).length = l.length := by
        cases nf <;> simp [applyNf]
      intro hcon
      rw [hcon] at hlen
      simp at hlen
      omega
    have hgl : (applyNf nf l).getLast? = some ((applyNf nf l).getLast hne) :=
      List.getLast?_eq_getLast _ hne
    dsimp only
    rw [hgl]
    dsimp only
    simp only [getD_bump, pairLoop_chord_counts]
    have hsplit : (applyNf nf l).count c =
        (applyNf nf l).dropLast.count c +
          if (applyNf nf l).getLast hne = c then 1 else 0 := by
      conv_lhs => rw [← List.dropLast_append_getLast hne]
      rw [List.count_append]
      simp [List.count_singleton']
    omega

theorem processProg_total_chords (nf : Option (String → String))
    (st : BuildSt) (l : List String) :
    (processProg nf st l).total_chords =
      st.total_chords + if l.length < 2 then 0 else l.length := by
  unfold processProg
  by_cases hl : l.length < 2
  · simp [hl]
  · rw [if_neg hl, if_neg hl]
    have hlen : (applyNf nf l).length = l.length := by
      cases nf <;> simp [applyNf]
    have hne : applyNf nf l ≠ [] := by
      intro hcon
      rw [hcon] at hlen
      simp at hlen
      omega
    have hgl : (applyNf nf l).getLast? = some ((applyNf nf l).getLast hne) :=
      List.getLast?_eq_getLast _ hne
    dsimp only
    rw [hgl]
    dsimp only
    simp only [pairLoop_total_chords]
    omega

theorem foldProgs_chord_counts (nf : Option (String → String)) (c : String) :
    ∀ (progs : List (List String)) (st : BuildSt),
      getD (progs.foldl (processProg nf) st).chord_counts c 0 =
        getD st.chord_counts c 0 + occCount progs nf c
  | [], st => by simp [occCount]
  | p :: progs, st => by
    rw [List.foldl_cons, foldProgs_chord_counts nf c progs,
      processProg_chord_counts]
    unfold occCount
    simp
    omega

theorem foldProgs_total_chords (nf : Option (String → String)) :
    ∀ (progs : List (List String)) (st : BuildSt),
      (progs.foldl (processProg nf) st).total_chords =
        st.total_chords + totalOcc progs nf
  | [], st => by simp [totalOcc]
  | p :: progs, st => by
    rw [List.foldl_cons, foldProgs_total_chords nf progs,
      processProg_total_chords]
    unfold totalOcc
    simp
    omega

/-- Any property of the chord-counting table preserved by `bump` is
preserved by the whole pair loop. -/
theorem pairLoop_cc_pres (P : List (String × ℕ) → Prop)
    (hP : ∀ l k, P l → P (bump l k)) :
    ∀ (l : List String) (p2 p1 : Option String) (st : BuildSt),
      P st.chord_counts → P (pairLoop p2 p1 l st).chord_counts
  | [], _, _, st => fun h => h
  | [a], _, _, st => fun h => h
  | a :: b :: rest, p2, p1, st => fun h => by
    have hrec : pairLoop p2 p1 (a :: b :: rest) st =
        pairLoop p1 (some a) (b :: rest) (pairStep p2 p1 a b st) := rfl
    rw [hrec]
    exact pairLoop_cc_pres P hP (b :: rest) p1 (some a) _
      (by rw [pairStep_chord_counts]; exact hP _ _ h)

theorem processProg_cc_pres (P : List (String × ℕ) → Prop)
    (hP : ∀ l k, P l → P (bump l k)) (nf : Option (String → String))
    (st : BuildSt) (l : List String) (h : P st.chord_counts) :
    P (processProg nf st l).chord_counts := by
  unfold processProg
  by_cases hl : l.length < 2
  · simpa [hl] using h
  · rw [if_neg hl]
    dsimp only
    cases hgl : (applyNf nf l).getLast? with
    | none => exact pairLoop_cc_pres P hP _ _ _ _ h
    | some lastChord =>
      exact hP _ _ (pairLoop_cc_pres P hP _ _ _ _ h)

theorem foldProgs_cc_pres (P : List (String × ℕ) → Prop)
    (hP : ∀ l k, P l → P (bump l k)) (nf : Option (String → String)) :
    ∀ (progs : List (List String)) (st : BuildSt),
      P st.chord_counts → P ((progs.foldl (processProg nf) st).chord_counts)
  | [], st => fun h => h
  | p :: progs, st => fun h => by
    rw [List.foldl_cons]
    exact foldProgs_cc_pres P hP nf progs _ (processProg_cc_pres P hP nf st p h)

/-- The invariant the chord-count table keeps through training: distinct
keys and strictly positive counts. -/
theorem bump_keeps_inv (l : List (String × ℕ)) (k : String)
    (h : (akeys l).Nodup ∧ ∀ x ∈ l, 0 < x.2) :
    (akeys (bump l k)).Nodup ∧ ∀ x ∈ bump l k, 0 < x.2 := by
  constructor
  · rw [bump, akeys_upsert]
    by_cases hm : k ∈ akeys l
    · simpa [hm] using h.1
    · rw [if_neg hm]
      exact List.Nodup.append h.1 (List.nodup_singleton k)
        (by simpa using fun hk => hm hk)
  · intro x hx
    rcases mem_upsert hx with hx' | hx'
    · exact h.2 x hx'
    · rw [hx']
      exact Nat.succ_pos _

theorem alookup_mem {K V : Type} [DecidableEq K] :
    ∀ {l : List (K × V)} {k : K} {v : V}, alookup l k = some v → (k, v) ∈ l := by
  intro l
  induction l with
  | nil => intro k v h; simp [alookup] at h
  | cons p t ih =>
    intro k v h
    obtain ⟨a, b⟩ := p
    by_cases hk : a = k
    · subst hk
      have hb : alookup ((a, b) :: t) a = some b := by simp [alookup]
      rw [hb] at h
      obtain rfl := Option.some.inj h
      exact List.mem_cons_self _ _
    · simp only [alookup, if_neg hk] at h
      exact List.mem_cons_of_mem _ (ih h)

/-- With positive stored counts, the lookup is determined by `getD`. -/
theorem alookup_of_pos {l : List (String × ℕ)} {c : String}
    (hpos : ∀ x ∈ l, 0 < x.2) :
    alookup l c = if 0 < getD l c 0 then some (getD l c 0) else none := by
  cases ha : alookup l c with
  | none =>
    have : getD l c 0 = 0 := by unfold getD; rw [ha]; rfl
    rw [this]
    simp
  | some v =>
    have hv : 0 < v := hpos (c, v) (alookup_mem ha)
    have : getD l c 0 = v := by unfold getD; rw [ha]; rfl
    rw [this, if_pos hv]

theorem occCount_le_totalOcc (nf : Option (String → String)) (c : String) :
    ∀ progs : List (List String), occCount progs nf c ≤ totalOcc progs nf
  | [] => le_refl _
  | p :: progs => by
    unfold occCount totalOcc
    simp only [List.map_cons, List.sum_cons]
    have h1 := occCount_le_totalOcc nf c progs
    unfold occCount totalOcc at h1
    have h2 : (if p.length < 2 then 0 else (applyNf nf p).count c) ≤
        (if p.length < 2 then 0 else p.length) := by
      by_cases hl : p.length < 2
      · simp [hl]
      · have : (applyNf nf p).length = p.length := by
          cases nf <;> simp [applyNf]
        simp only [if_neg hl]
        calc (applyNf nf p).count c ≤ (applyNf nf p).length :=
              List.count_le_length _ _
          _ = p.length := this
    omega

theorem add_chord_frequency_cf_self (m : MarkovModel) (c g : String) (v : ℚ) :
    alookup (m.add_chord_frequency c g v).chord_frequencies g =
      some (upsert (getD m.chord_frequencies g []) c v) := by
  unfold MarkovModel.add_chord_frequency
  exact alookup_upsert_self _

theorem add_chord_frequency_cf_ne (m : MarkovModel) (c g g' : String)
    (v : ℚ) (hne : g' ≠ g) :
    alookup (m.add_chord_frequency c g v).chord_frequencies g' =
      alookup m.chord_frequencies g' := by
  unfold MarkovModel.add_chord_frequency
  exact alookup_upsert_ne _ hne

theorem addfreq_fold_some (g : String) (f : String × ℕ → ℚ) :
    ∀ (items : List (String × ℕ)) (m : MarkovModel)
      (inner : List (String × ℚ)),
      alookup m.chord_frequencies g = some inner →
      alookup ((items.foldl
          (fun mm it => mm.add_chord_frequency it.1 g (f it))
          m).chord_frequencies) g =
        some (items.foldl (fun acc it => upsert acc it.1 (f it)) inner)
  | [], m, inner, h => by simpa using h
  | it :: items, m, inner, h => by
    rw [List.foldl_cons, List.foldl_cons]
    apply addfreq_fold_some g f items _ _
    rw [add_chord_frequency_cf_self]
    have hg : getD m.chord_frequencies g [] = inner := by
      unfold getD
      rw [h]
      rfl
    rw [hg]

theorem addfreq_fold_ne (g g' : String) (hne : g' ≠ g)
    (f : String × ℕ → ℚ) :
    ∀ (items : List (String × ℕ)) (m : MarkovModel),
      alookup ((items.foldl
          (fun mm it => mm.add_chord_frequency it.1 g (f it))
          m).chord_frequencies) g' = alookup m.chord_frequencies g'
  | [], m => rfl
  | it :: items, m => by
    rw [List.foldl_cons, addfreq_fold_ne g g' hne f items,
      add_chord_frequency_cf_ne _ _ _ _ _ hne]

theorem addfreq_fold_cf_congr (g : String) (f : String × ℕ → ℚ) :
    ∀ (items : List (String × ℕ)) (m m' : MarkovModel),
      m.chord_frequencies = m'.chord_frequencies →
      (items.foldl (fun mm it => mm.add_chord_frequency it.1 g (f it))
          m).chord_frequencies =
        (items.foldl (fun mm it => mm.add_chord_frequency it.1 g (f it))
          m').chord_frequencies
  | [], m, m', h => h
  | it :: items, m, m', h => by
    rw [List.foldl_cons, List.foldl_cons]
    apply addfreq_fold_cf_congr g f items
    unfold MarkovModel.add_chord_frequency
    simp only [h]

theorem fold_upsert_eq_map (f : String × ℕ → ℚ) :
    ∀ (items : List (String × ℕ)) (acc : List (String × ℚ)),
      (akeys items).Nodup → (∀ k ∈ akeys items, k ∉ akeys acc) →
      items.foldl (fun a it => upsert a it.1 (f it)) acc =
        acc ++ items.map (fun it => (it.1, f it))
  | [], acc, _, _ => by simp
  | it :: items, acc, hnd, hdisj => by
    rw [List.foldl_cons]
    have hmem : it.1 ∉ akeys acc := hdisj it.1 (by simp [akeys])
    rw [upsert_of_notMem _ hmem]
    have hnd' : (akeys items).Nodup := by
      have : akeys (it :: items) = it.1 :: akeys items := rfl
      rw [this] at hnd
      exact hnd.of_cons
    have hhd : it.1 ∉ akeys items := by
      have : akeys (it :: items) = it.1 :: akeys items := rfl
      rw [this] at hnd
      exact (List.nodup_cons.mp hnd).1
    have hdisj' : ∀ k ∈ akeys items, k ∉ akeys (acc ++ [(it.1, f it)]) := by
      intro k hk
      have h1 : k ∉ akeys acc := hdisj k (List.mem_cons_of_mem _ hk)
      have h2 : k ≠ it.1 := fun hcon => hhd (hcon ▸ hk)
      unfold akeys
      rw [List.map_append]
      simp [akeys] at h1 ⊢
      exact ⟨h1, h2⟩
    rw [fold_upsert_eq_map f items _ hnd' hdisj']
    simp

theorem alookup_map_value (f : ℕ → ℚ) :
    ∀ (l : List (String × ℕ)) (c : String),
      alookup (l.map fun p => (p.1, f p.2)) c = (alookup l c).map f
  | [], _ => rfl
  | p :: t, c => by
    by_cases h : p.1 = c
    · simp [alookup, h]
    · simp only [List.map_cons, alookup, h, if_neg h]
      exact alookup_map_value f t c

theorem foldl_cf_const {α : Type} (step : MarkovModel → α → MarkovModel)
    (hstep : ∀ m x, (step m x).chord_frequencies = m.chord_frequencies) :
    ∀ (l : List α) (m : MarkovModel),
      (l.foldl step m).chord_frequencies = m.chord_frequencies
  | [], m => rfl
  | x :: l, m => by
    rw [List.foldl_cons, foldl_cf_const step hstep l, hstep]

theorem foldl_cf_const' {α : Type} {step : MarkovModel → α → MarkovModel}
    {l : List α} {m : MarkovModel}
    {X : List (String × List (String × ℚ))}
    (hstep : ∀ mm x, (step mm x).chord_frequencies = mm.chord_frequencies)
    (hm : m.chord_frequencies = X) :
    (l.foldl step m).chord_frequencies = X := by
  rw [foldl_cf_const step hstep, hm]

/-- The chord-frequency table `buildGenre` produces: the frequency fold over
the pass's chord counts, on top of the incoming table (the
transition-probability folds and the genre-total update do not touch it). -/
theorem buildGenre_cf (rows : List Row) (nf : Option (String → String))
    (mbc mtc : ℕ) (m : MarkovModel) (g : String) :
    (buildGenre rows nf mbc mtc m g).chord_frequencies =
      (((genreSt rows nf g).chord_counts).foldl
        (fun (mm : MarkovModel) (cc : String × ℕ) => mm.add_chord_frequency cc.1 g
          (if 0 < (genreSt rows nf g).total_chords then
            (cc.2 : ℚ) / ((genreSt rows nf g).total_chords : ℚ) else 0))
        { MarkovModel.empty with
            chord_frequencies := m.chord_frequencies }).chord_frequencies := by
  unfold buildGenre
  dsimp only
  apply addfreq_fold_cf_congr
  apply foldl_cf_const'
  · intro mm kc
    dsimp only
    by_cases h : getD (genreSt rows nf g).trigram_totals kc.1 0 < mtc
    · rw [if_pos h]
    · rw [if_neg h]
      apply foldl_cf_const
      intro m2 tc
      rfl
  apply foldl_cf_const'
  · intro mm kc
    dsimp only
    by_cases h : getD (genreSt rows nf g).bigram_totals kc.1 0 < mbc
    · rw [if_pos h]
    · rw [if_neg h]
      apply foldl_cf_const
      intro m2 tc
      rfl
  apply foldl_cf_const'
  · intro mm fc
    apply foldl_cf_const
    intro m2 tc
    rfl
  rfl

theorem buildGenre_cf_ne (rows : List Row) (nf : Option (String → String))
    (mbc mtc : ℕ) (m : MarkovModel) (g g' : String) (hne : g' ≠ g) :
    alookup (buildGenre rows nf mbc mtc m g).chord_frequencies g' =
      alookup m.chord_frequencies g' := by
  rw [buildGenre_cf, addfreq_fold_ne g g' hne]

theorem alookup_map_pair (f : String × ℕ → ℚ) :
    ∀ (l : List (String × ℕ)) (c : String),
      alookup (l.map fun p => (p.1, f p)) c =
        (alookup l c).map (fun v => f (c, v))
  | [], _ => rfl
  | p :: t, c => by
    by_cases h : p.1 = c
    · obtain ⟨a, b⟩ := p
      simp only at h
      subst h
      simp [alookup]
    · simp only [List.map_cons, alookup, h, if_neg h]
      exact alookup_map_pair f t c

/-- The inner frequency table `buildGenre` records for its own genre,
expressed via occurrence counts, when the genre was not yet present. -/
theorem buildGenre_cf_self (rows : List Row) (nf : Option (String → String))
    (mbc mtc : ℕ) (m : MarkovModel) (g : String)
    (hnone : alookup m.chord_frequencies g = none) (c : String) :
    alookup2 (buildGenre rows nf mbc mtc m g).chord_frequencies g c =
      (if 0 < occCount (genreProgs rows g) nf c then
        some ((occCount (genreProgs rows g) nf c : ℚ) /
          (totalOcc (genreProgs rows g) nf : ℚ))
      else none) := by
  have hst_cc : ∀ c', getD (genreSt rows nf g).chord_counts c' 0 =
      occCount (genreProgs rows g) nf c' := by
    intro c'
    unfold genreSt
    rw [foldProgs_chord_counts]
    simp [BuildSt.empty, getD, alookup]
  have hst_tot : (genreSt rows nf g).total_chords =
      totalOcc (genreProgs rows g) nf := by
    unfold genreSt
    rw [foldProgs_total_chords]
    simp [BuildSt.empty]
  have hinv : (akeys (genreSt rows nf g).chord_counts).Nodup ∧
      ∀ x ∈ (genreSt rows nf g).chord_counts, 0 < x.2 := by
    unfold genreSt
    apply foldProgs_cc_pres _ bump_keeps_inv
    constructor
    · exact List.nodup_nil
    · intro x hx
      simp [BuildSt.empty] at hx
  rw [buildGenre_cf]
  cases hcc : (genreSt rows nf g).chord_counts with
  | nil =>
    have hocc : occCount (genreProgs rows g) nf c = 0 := by
      rw [← hst_cc c, hcc]
      rfl
    rw [hocc, if_neg (by omega)]
    unfold alookup2
    simp only [List.foldl_nil]
    have : alookup ({ MarkovModel.empty with
        chord_frequencies := m.chord_frequencies } :
          MarkovModel).chord_frequencies g = none := hnone
    rw [this]
  | cons hd tl =>
    rw [hcc] at hinv
    unfold alookup2
    rw [List.foldl_cons]
    rw [addfreq_fold_some _ _ tl _ (upsert [] hd.1
      (if 0 < (genreSt rows nf g).total_chords then
        (hd.2 : ℚ) / ((genreSt rows nf g).total_chords : ℚ) else 0))
      (by
        rw [add_chord_frequency_cf_self]
        have hg : getD ({ MarkovModel.empty with
            chord_frequencies := m.chord_frequencies } :
              MarkovModel).chord_frequencies g [] = [] := by
          unfold getD
          rw [show alookup ({ MarkovModel.empty with
              chord_frequencies := m.chord_frequencies } :
                MarkovModel).chord_frequencies g = none from hnone]
          rfl
        rw [hg])]
    have hfold : tl.foldl (fun acc it => upsert acc it.1
        (if 0 < (genreSt rows nf g).total_chords then
          (it.2 : ℚ) / ((genreSt rows nf g).total_chords : ℚ) else 0))
        (upsert [] hd.1
          (if 0 < (genreSt rows nf g).total_chords then
            (hd.2 : ℚ) / ((genreSt rows nf g).total_chords : ℚ) else 0)) =
        (hd :: tl).map fun p => (p.1,
          if 0 < (genreSt rows nf g).total_chords then
            (p.2 : ℚ) / ((genreSt rows nf g).total_chords : ℚ) else 0) := by
      have h0 : upsert ([] : List (String × ℚ)) hd.1
          (if 0 < (genreSt rows nf g).total_chords then
            (hd.2 : ℚ) / ((genreSt rows nf g).total_chords : ℚ) else 0) =
          [(hd.1, if 0 < (genreSt rows nf g).total_chords then
            (hd.2 : ℚ) / ((genreSt rows nf g).total_chords : ℚ) else 0)] :=
        rfl
      rw [h0]
      have hnd' : (akeys tl).Nodup := by
        have : akeys (hd :: tl) = hd.1 :: akeys tl := rfl
        rw [this] at hinv
        exact hinv.1.of_cons
      have hdisj : ∀ k ∈ akeys tl, k ∉ akeys [(hd.1,
          if 0 < (genreSt rows nf g).total_chords then
            (hd.2 : ℚ) / ((genreSt rows nf g).total_chords : ℚ) else 0)] := by
        intro k hk
        have : akeys (hd :: tl) = hd.1 :: akeys tl := rfl
        rw [this] at hinv
        have hne := (List.nodup_cons.mp hinv.1).1
        simp [akeys]
        intro hcon
        exact hne (hcon ▸ hk)
      rw [fold_upsert_eq_map _ tl _ hnd' hdisj]
      simp
    rw [hfold]
    dsimp only
    rw [alookup_map_pair]
    rw [alookup_of_pos hinv.2, ← hcc, hst_cc]
    by_cases hocc : 0 < occCount (genreProgs rows g) nf c
    · rw [if_pos hocc, if_pos hocc]
      have htotpos : 0 < (genreSt rows nf g).total_chords := by
        rw [hst_tot]
        have := occCount_le_totalOcc nf c (genreProgs rows g)
        omega
      simp only [Option.map_some']
      rw [if_pos htotpos, hst_tot]
    · rw [if_neg hocc, if_neg hocc]
      rfl

theorem uniqueGenres_nodup (rows : List Row) : (uniqueGenres rows).Nodup := by
  suffices h : ∀ (rs : List Row) (acc : List String), acc.Nodup →
      (rs.foldl (fun acc r => if r.2 ∈ acc then acc else acc ++ [r.2])
        acc).Nodup from h rows [] List.nodup_nil
  intro rs
  induction rs with
  | nil => exact fun acc h => h
  | cons r t ih =>
    intro acc h
    rw [List.foldl_cons]
    apply ih
    by_cases hm : r.2 ∈ acc
    · simpa [hm] using h
    · rw [if_neg hm]
      exact List.Nodup.append h (List.nodup_singleton _)
        (by simpa using fun hk => hm hk)

theorem validGenres_nodup (rows : List Row) (mgs : ℕ) :
    (validGenres rows mgs).Nodup := by
  unfold validGenres
  exact (sortByDesc_perm _ _).nodup_iff.mpr
    ((uniqueGenres_nodup rows).filter _)

theorem foldGenres_cf_ne (rows : List Row) (nf : Option (String → String))
    (mbc mtc : ℕ) (g0 : String) :
    ∀ (gs : List String) (m : MarkovModel), (∀ g' ∈ gs, g' ≠ g0) →
      alookup ((gs.foldl (buildGenre rows nf mbc mtc) m).chord_frequencies)
        g0 = alookup m.chord_frequencies g0
  | [], m, _ => rfl
  | gg :: gs, m, h => by
    rw [List.foldl_cons,
      foldGenres_cf_ne rows nf mbc mtc g0 gs _
        (fun g' hg' => h g' (List.mem_cons_of_mem _ hg')),
      buildGenre_cf_ne rows nf mbc mtc m gg g0
        (Ne.symm (h gg (List.mem_cons_self _ _)))]

theorem alookup2_congr {l l' : List (String × List (String × ℚ))}
    (g : String) (h : alookup l g = alookup l' g) (c : String) :
    alookup2 l g c = alookup2 l' g c := by
  unfold alookup2
  rw [h]

theorem foldGenres_cf (rows : List Row) (nf : Option (String → String))
    (mbc mtc : ℕ) :
    ∀ (gs : List String) (m : MarkovModel), gs.Nodup →
      (∀ g ∈ gs, alookup m.chord_frequencies g = none) →
      ∀ g ∈ gs, ∀ c,
        alookup2 ((gs.foldl (buildGenre rows nf mbc mtc)
            m).chord_frequencies) g c =
          (if 0 < occCount (genreProgs rows g) nf c then
            some ((occCount (genreProgs rows g) nf c : ℚ) /
              (totalOcc (genreProgs rows g) nf : ℚ))
          else none)
  | [], m, _, _ => by
    intro g hg
    simp at hg
  | g0 :: gs, m, hnd, hnone => by
    intro g hg c
    rw [List.foldl_cons]
    rcases List.mem_cons.mp hg with hgeq | hgmem
    · subst hgeq
      have hpres : alookup ((gs.foldl (buildGenre rows nf mbc mtc)
          (buildGenre rows nf mbc mtc m g)).chord_frequencies) g =
          alookup (buildGenre rows nf mbc mtc m g).chord_frequencies g :=
        foldGenres_cf_ne rows nf mbc mtc g gs _
          (fun g' hg' hcon => (List.nodup_cons.mp hnd).1 (hcon ▸ hg'))
      rw [alookup2_congr g hpres c]
      exact buildGenre_cf_self rows nf mbc mtc m g
        (hnone g (List.mem_cons_self _ _)) c
    · apply foldGenres_cf rows nf mbc mtc gs _ (List.nodup_cons.mp hnd).2 _
        g hgmem c
      intro g' hg'
      have hne : g' ≠ g0 := fun hcon =>
        (List.nodup_cons.mp hnd).1 (hcon ▸ hg')
      rw [buildGenre_cf_ne rows nf mbc mtc m g0 g' hne]
      exact hnone g' (List.mem_cons_of_mem _ hg')

/-- C5 (amended): for every genre the builder retains, the recorded
frequency of every chord equals its occurrence count divided by the total
chord occurrences counted over the genre's progressions **with at least two
chords**; chords of shorter progressions are never counted because the pass
skips those progressions entirely, and a chord with no counted occurrence
has no entry. -/
theorem c5_frequency_over_consumed (rows : List Row)
    (nf : Option (String → String)) (mgs mbc mtc : ℕ) (g : String)
    (hg : g ∈ validGenres rows mgs) (c : String) :
    alookup2 (buildMarkovModel rows nf mgs mbc mtc).chord_frequencies g c =
      (if 0 < occCount (genreProgs rows g) nf c then
        some ((occCount (genreProgs rows g) nf c : ℚ) /
          (totalOcc (genreProgs rows g) nf : ℚ))
      else none) := by
  unfold buildMarkovModel
  exact foldGenres_cf rows nf mbc mtc (validGenres rows mgs)
    MarkovModel.empty (validGenres_nodup rows mgs) (fun g' _ => rfl) g hg c

/-- Witness for `c5_frequency_over_consumed`: in the "pop" training data,
"C" occurs 5 times among 10 counted chords, and the model stores 1/2. -/
theorem c5_frequency_witness :
    "pop" ∈ validGenres popRows 1 ∧
      alookup2 (buildMarkovModel popRows none 1 3 2).chord_frequencies
        "pop" "C" = some (1/2) := by
  refine ⟨by decide, ?_⟩
  have h := c5_frequency_over_consumed popRows none 1 3 2 "pop" (by decide)
    "C"
  rw [h]
  with_unfolding_all decide

/-- C5 counterexample: with a retained genre whose only progression is the
single chord ["C"], that chord occurrence is never counted — the frequency
table has no entry for "C" — refuting "every chord occurrence in every
progression of a retained genre is counted". -/
theorem c5_counterexample :
    "pop" ∈ validGenres shortRows 1 ∧ (["C"], "pop") ∈ shortRows ∧
      alookup2 (buildMarkovModel shortRows none 1 3 2).chord_frequencies
        "pop" "C" = none := by
  exact ⟨by decide, by decide, by with_unfolding_all decide⟩

/-! ## C2: serialization round-trip

`from_dict` replays `add_*` calls over the serialized nested dicts; the
lemmas below show that this replay rebuilds each table (dropping only
entries whose inner dict is empty, which no lookup can distinguish). -/

theorem getD_of_notMem {K V : Type} [DecidableEq K] {t : List (K × V)}
    {g : K} (d : V) (h : g ∉ akeys t) : getD t g d = d := by
  unfold getD
  rw [alookup_eq_none.mpr h]
  rfl

theorem getD_last {K V : Type} [DecidableEq K] {t : List (K × V)} {g : K}
    (v : V) (d : V) (h : g ∉ akeys t) : getD (t ++ [(g, v)]) g d = v := by
  unfold getD
  rw [alookup_append_of_notMem _ h]
  simp [alookup]

theorem upsert3_fresh {t : TransTable} {g : String} (k c : String) (v : ℚ)
    (h : g ∉ akeys t) : upsert3 t g k c v = t ++ [(g, [(k, [(c, v)])])] := by
  unfold upsert3
  rw [getD_of_notMem _ h]
  exact upsert_of_notMem _ h

theorem upsert3_last {t : TransTable} {g : String}
    (ctxs : List (String × List (String × ℚ))) (k c : String) (v : ℚ)
    (h : g ∉ akeys t) :
    upsert3 (t ++ [(g, ctxs)]) g k c v =
      t ++ [(g, upsert ctxs k (upsert (getD ctxs k []) c v))] := by
  unfold upsert3
  rw [getD_last _ _ h]
  exact upsert_last _ _ h

theorem innerChordFold {g k : String} :
    ∀ (rest : List (String × ℚ)) (t : TransTable)
      (done : List (String × List (String × ℚ))) (cur : List (String × ℚ)),
      g ∉ akeys t → k ∉ akeys done →
      (∀ c' ∈ akeys rest, c' ∉ akeys cur) → (akeys rest).Nodup →
      rest.foldl (fun a3 cp => upsert3 a3 g k cp.1 cp.2)
        (t ++ [(g, done ++ [(k, cur)])]) =
        t ++ [(g, done ++ [(k, cur ++ rest)])]
  | [], t, done, cur, _, _, _, _ => by simp
  | cp :: rest, t, done, cur, hg, hk, hdisj, hnd => by
    rw [List.foldl_cons, upsert3_last _ _ _ _ hg]
    have h1 : getD (done ++ [(k, cur)]) k [] = cur := getD_last _ _ hk
    rw [h1]
    have h2 : cp.1 ∉ akeys cur := hdisj cp.1 (List.mem_cons_self _ _)
    rw [upsert_of_notMem _ h2, upsert_last _ _ hk]
    have hnd' : (akeys rest).Nodup := by
      have : akeys (cp :: rest) = cp.1 :: akeys rest := rfl
      rw [this] at hnd
      exact hnd.of_cons
    have hhd : cp.1 ∉ akeys rest := by
      have : akeys (cp :: rest) = cp.1 :: akeys rest := rfl
      rw [this] at hnd
      exact (List.nodup_cons.mp hnd).1
    have hdisj' : ∀ c' ∈ akeys rest, c' ∉ akeys (cur ++ [(cp.1, cp.2)]) := by
      intro c' hc'
      unfold akeys
      rw [List.map_append]
      intro hcon
      rcases List.mem_append.mp hcon with hcon | hcon
      · exact hdisj c' (List.mem_cons_of_mem _ hc') hcon
      · simp at hcon
        exact hhd (hcon ▸ hc')
    rw [innerChordFold rest t done (cur ++ [(cp.1, cp.2)]) hg hk hdisj' hnd']
    simp

theorem ctxsFold {g : String} :
    ∀ (ctxs : List (String × List (String × ℚ))) (t : TransTable)
      (done : List (String × List (String × ℚ))),
      g ∉ akeys t → (akeys ctxs).Nodup →
      (∀ k' ∈ akeys ctxs, k' ∉ akeys done) →
      (∀ kt ∈ ctxs, kt.2 ≠ [] ∧ (akeys kt.2).Nodup) →
      ctxs.foldl (fun a2 kt => kt.2.foldl
          (fun a3 cp => upsert3 a3 g kt.1 cp.1 cp.2) a2)
        (t ++ [(g, done)]) = t ++ [(g, done ++ ctxs)]
  | [], t, done, _, _, _, _ => by simp
  | kt :: rest, t, done, hg, hnd, hdisj, hin => by
    rw [List.foldl_cons]
    obtain ⟨hne, hndin⟩ := hin kt (List.mem_cons_self _ _)
    obtain ⟨cp0, tos, hkt2⟩ : ∃ cp0 tos, kt.2 = cp0 :: tos := by
      cases hkt : kt.2 with
      | nil => exact absurd hkt hne
      | cons a b => exact ⟨a, b, rfl⟩
    have hk1done : kt.1 ∉ akeys done := hdisj kt.1 (List.mem_cons_self _ _)
    have hstep : kt.2.foldl (fun a3 cp => upsert3 a3 g kt.1 cp.1 cp.2)
        (t ++ [(g, done)]) = t ++ [(g, done ++ [kt])] := by
      rw [hkt2, List.foldl_cons, upsert3_last _ _ _ _ hg,
        getD_of_notMem _ hk1done]
      have h0 : upsert ([] : List (String × ℚ)) cp0.1 cp0.2 =
          [(cp0.1, cp0.2)] := rfl
      rw [h0, upsert_of_notMem _ hk1done]
      rw [hkt2] at hndin
      have hnd2 : (akeys tos).Nodup := by
        have : akeys (cp0 :: tos) = cp0.1 :: akeys tos := rfl
        rw [this] at hndin
        exact hndin.of_cons
      have hhd2 : cp0.1 ∉ akeys tos := by
        have : akeys (cp0 :: tos) = cp0.1 :: akeys tos := rfl
        rw [this] at hndin
        exact (List.nodup_cons.mp hndin).1
      have hdisj2 : ∀ c' ∈ akeys tos, c' ∉ akeys [(cp0.1, cp0.2)] := by
        intro c' hc'
        simp [akeys]
        intro hcon
        exact hhd2 (hcon ▸ hc')
      rw [innerChordFold tos t done [(cp0.1, cp0.2)] hg hk1done hdisj2 hnd2]
      have : (cp0.1, cp0.2) :: tos = kt.2 := by rw [hkt2]
      simp only [List.cons_append, List.nil_append] at this ⊢
      rw [this]
    rw [hstep]
    have hnd' : (akeys rest).Nodup := by
      have : akeys (kt :: rest) = kt.1 :: akeys rest := rfl
      rw [this] at hnd
      exact hnd.of_cons
    have hhd : kt.1 ∉ akeys rest := by
      have : akeys (kt :: rest) = kt.1 :: akeys rest := rfl
      rw [this] at hnd
      exact (List.nodup_cons.mp hnd).1
    have hdisj' : ∀ k' ∈ akeys rest, k' ∉ akeys (done ++ [kt]) := by
      intro k' hk'
      unfold akeys
      rw [List.map_append]
      intro hcon
      rcases List.mem_append.mp hcon with hcon | hcon
      · exact hdisj k' (List.mem_cons_of_mem _ hk') hcon
      · simp at hcon
        exact hhd (hcon ▸ hk')
    rw [ctxsFold rest t (done ++ [kt]) hg hnd' hdisj'
      (fun kt' hkt' => hin kt' (List.mem_cons_of_mem _ hkt'))]
    simp

theorem ctxsFoldFresh {g : String}
    (ctxs : List (String × List (String × ℚ))) (t : TransTable)
    (hg : g ∉ akeys t) (hne : ctxs ≠ [])
    (hnd : (akeys ctxs).Nodup)
    (hin : ∀ kt ∈ ctxs, kt.2 ≠ [] ∧ (akeys kt.2).Nodup) :
    ctxs.foldl (fun a2 kt => kt.2.foldl
        (fun a3 cp => upsert3 a3 g kt.1 cp.1 cp.2) a2) t =
      t ++ [(g, ctxs)] := by
  obtain ⟨kt, rest, rfl⟩ : ∃ kt rest, ctxs = kt :: rest := by
    cases ctxs with
    | nil => exact absurd rfl hne
    | cons a b => exact ⟨a, b, rfl⟩
  rw [List.foldl_cons]
  obtain ⟨hne2, hndin⟩ := hin kt (List.mem_cons_self _ _)
  obtain ⟨cp0, tos, hkt2⟩ : ∃ cp0 tos, kt.2 = cp0 :: tos := by
    cases hkt : kt.2 with
    | nil => exact absurd hkt hne2
    | cons a b => exact ⟨a, b, rfl⟩
  have hstep : kt.2.foldl (fun a3 cp => upsert3 a3 g kt.1 cp.1 cp.2) t =
      t ++ [(g, [kt])] := by
    rw [hkt2, List.foldl_cons, upsert3_fresh _ _ _ hg]
    rw [hkt2] at hndin
    have hnd2 : (akeys tos).Nodup := by
      have : akeys (cp0 :: tos) = cp0.1 :: akeys tos := rfl
      rw [this] at hndin
      exact hndin.of_cons
    have hhd2 : cp0.1 ∉ akeys tos := by
      have : akeys (cp0 :: tos) = cp0.1 :: akeys tos := rfl
      rw [this] at hndin
      exact (List.nodup_cons.mp hndin).1
    have hdisj2 : ∀ c' ∈ akeys tos, c' ∉ akeys [(cp0.1, cp0.2)] := by
      intro c' hc'
      simp [akeys]
      intro hcon
      exact hhd2 (hcon ▸ hc')
    have hform : t ++ [(g, [(kt.1, [(cp0.1, cp0.2)])])] =
        t ++ [(g, ([] : List (String × List (String × ℚ))) ++
          [(kt.1, [(cp0.1, cp0.2)])])] := by simp
    rw [hform,
      innerChordFold tos t [] [(cp0.1, cp0.2)] hg (by simp [akeys]) hdisj2
        hnd2]
    have : (cp0.1, cp0.2) :: tos = kt.2 := by rw [hkt2]
    simp only [List.cons_append, List.nil_append] at this ⊢
    rw [this]
  rw [hstep]
  have hnd' : (akeys rest).Nodup := by
    have : akeys (kt :: rest) = kt.1 :: akeys rest := rfl
    rw [this] at hnd
    exact hnd.of_cons
  have hhd : kt.1 ∉ akeys rest := by
    have : akeys (kt :: rest) = kt.1 :: akeys rest := rfl
    rw [this] at hnd
    exact (List.nodup_cons.mp hnd).1
  have hdisj' : ∀ k' ∈ akeys rest, k' ∉ akeys [kt] := by
    intro k' hk'
    simp [akeys]
    intro hcon
    exact hhd (hcon ▸ hk')
  rw [ctxsFold rest t [kt] hg hnd' hdisj'
    (fun kt' hkt' => hin kt' (List.mem_cons_of_mem _ hkt'))]
  simp

/-- Replaying nested `add_*` calls over a serialized three-level table
rebuilds it, except that genres whose context dict is empty are dropped. -/
theorem outerFold3 :
    ∀ (d : TransTable) (t : TransTable),
      (∀ g ∈ akeys d, g ∉ akeys t) → (akeys d).Nodup →
      (∀ gc ∈ d, (akeys gc.2).Nodup ∧
        ∀ kt ∈ gc.2, kt.2 ≠ [] ∧ (akeys kt.2).Nodup) →
      d.foldl (fun acc gc => gc.2.foldl (fun a2 kt => kt.2.foldl
          (fun a3 cp => upsert3 a3 gc.1 kt.1 cp.1 cp.2) a2) acc) t =
        t ++ d.filter (fun gc => !gc.2.isEmpty)
  | [], t, _, _, _ => by simp
  | gc :: rest, t, hdisj, hnd, hin => by
    rw [List.foldl_cons]
    have hnd' : (akeys rest).Nodup := by
      have : akeys (gc :: rest) = gc.1 :: akeys rest := rfl
      rw [this] at hnd
      exact hnd.of_cons
    have hhd : gc.1 ∉ akeys rest := by
      have : akeys (gc :: rest) = gc.1 :: akeys rest := rfl
      rw [this] at hnd
      exact (List.nodup_cons.mp hnd).1
    by_cases hgc2 : gc.2 = []
    · have hstep : gc.2.foldl (fun a2 kt => kt.2.foldl
          (fun a3 cp => upsert3 a3 gc.1 kt.1 cp.1 cp.2) a2) t = t := by
        rw [hgc2]
        rfl
      rw [hstep, outerFold3 rest t
        (fun g hg => hdisj g (List.mem_cons_of_mem _ hg)) hnd'
        (fun gc' hgc' => hin gc' (List.mem_cons_of_mem _ hgc'))]
      have : (gc :: rest).filter (fun gc => !gc.2.isEmpty) =
          rest.filter (fun gc => !gc.2.isEmpty) := by
        rw [List.filter_cons]
        simp [hgc2]
      rw [this]
    · have hg : gc.1 ∉ akeys t := hdisj gc.1 (List.mem_cons_self _ _)
      obtain ⟨hndc, hinc⟩ := hin gc (List.mem_cons_self _ _)
      have hstep : gc.2.foldl (fun a2 kt => kt.2.foldl
          (fun a3 cp => upsert3 a3 gc.1 kt.1 cp.1 cp.2) a2) t =
          t ++ [gc] := ctxsFoldFresh gc.2 t hg hgc2 hndc hinc
      rw [hstep]
      have hdisj' : ∀ g ∈ akeys rest, g ∉ akeys (t ++ [gc]) := by
        intro g hg'
        unfold akeys
        rw [List.map_append]
        intro hcon
        rcases List.mem_append.mp hcon with hcon | hcon
        · exact hdisj g (List.mem_cons_of_mem _ hg') hcon
        · simp at hcon
          exact hhd (hcon ▸ hg')
      rw [outerFold3 rest (t ++ [gc]) hdisj' hnd'
        (fun gc' hgc' => hin gc' (List.mem_cons_of_mem _ hgc'))]
      have : (gc :: rest).filter (fun gc => !gc.2.isEmpty) =
          gc :: rest.filter (fun gc => !gc.2.isEmpty) := by
        rw [List.filter_cons]
        simp [List.isEmpty_iff, hgc2]
      rw [this]
      simp

theorem innerFold2 {g : String} :
    ∀ (rest : List (String × ℚ))
      (t : List (String × List (String × ℚ))) (cur : List (String × ℚ)),
      g ∉ akeys t → (∀ c' ∈ akeys rest, c' ∉ akeys cur) →
      (akeys rest).Nodup →
      rest.foldl (fun a cp => upsert a g (upsert (getD a g []) cp.1 cp.2))
        (t ++ [(g, cur)]) = t ++ [(g, cur ++ rest)]
  | [], t, cur, _, _, _ => by simp
  | cp :: rest, t, cur, hg, hdisj, hnd => by
    rw [List.foldl_cons, getD_last _ _ hg,
      upsert_of_notMem _ (hdisj cp.1 (List.mem_cons_self _ _)),
      upsert_last _ _ hg]
    have hnd' : (akeys rest).Nodup := by
      have : akeys (cp :: rest) = cp.1 :: akeys rest := rfl
      rw [this] at hnd
      exact hnd.of_cons
    have hhd : cp.1 ∉ akeys rest := by
      have : akeys (cp :: rest) = cp.1 :: akeys rest := rfl
      rw [this] at hnd
      exact (List.nodup_cons.mp hnd).1
    have hdisj' : ∀ c' ∈ akeys rest, c' ∉ akeys (cur ++ [(cp.1, cp.2)]) := by
      intro c' hc'
      unfold akeys
      rw [List.map_append]
      intro hcon
      rcases List.mem_append.mp hcon with hcon | hcon
      · exact hdisj c' (List.mem_cons_of_mem _ hc') hcon
      · simp at hcon
        exact hhd (hcon ▸ hc')
    rw [innerFold2 rest t (cur ++ [(cp.1, cp.2)]) hg hdisj' hnd']
    simp

theorem outerFold2 :
    ∀ (d : List (String × List (String × ℚ)))
      (t : List (String × List (String × ℚ))),
      (∀ g ∈ akeys d, g ∉ akeys t) → (akeys d).Nodup →
      (∀ gc ∈ d, (akeys gc.2).Nodup) →
      d.foldl (fun acc gc => gc.2.foldl (fun a2 cp =>
          upsert a2 gc.1 (upsert (getD a2 gc.1 []) cp.1 cp.2)) acc) t =
        t ++ d.filter (fun gc => !gc.2.isEmpty)
  | [], t, _, _, _ => by simp
  | gc :: rest, t, hdisj, hnd, hin => by
    rw [List.foldl_cons]
    have hnd' : (akeys rest).Nodup := by
      have : akeys (gc :: rest) = gc.1 :: akeys rest := rfl
      rw [this] at hnd
      exact hnd.of_cons
    have hhd : gc.1 ∉ akeys rest := by
      have : akeys (gc :: rest) = gc.1 :: akeys rest := rfl
      rw [this] at hnd
      exact (List.nodup_cons.mp hnd).1
    by_cases hgc2 : gc.2 = []
    · have hstep : gc.2.foldl (fun a2 cp =>
          upsert a2 gc.1 (upsert (getD a2 gc.1 []) cp.1 cp.2)) t = t := by
        rw [hgc2]
        rfl
      rw [hstep, outerFold2 rest t
        (fun g hg => hdisj g (List.mem_cons_of_mem _ hg)) hnd'
        (fun gc' hgc' => hin gc' (List.mem_cons_of_mem _ hgc'))]
      have : (gc :: rest).filter (fun gc => !gc.2.isEmpty) =
          rest.filter (fun gc => !gc.2.isEmpty) := by
        rw [List.filter_cons]
        simp [hgc2]
      rw [this]
    · have hg : gc.1 ∉ akeys t := hdisj gc.1 (List.mem_cons_self _ _)
      have hndc := hin gc (List.mem_cons_self _ _)
      obtain ⟨cp0, tos, hkt2⟩ : ∃ cp0 tos, gc.2 = cp0 :: tos := by
        cases hkt : gc.2 with
        | nil => exact absurd hkt hgc2
        | cons a b => exact ⟨a, b, rfl⟩
      have hstep : gc.2.foldl (fun a2 cp =>
          upsert a2 gc.1 (upsert (getD a2 gc.1 []) cp.1 cp.2)) t =
          t ++ [gc] := by
        rw [hkt2, List.foldl_cons, getD_of_notMem _ hg]
        have h0 : upsert ([] : List (String × ℚ)) cp0.1 cp0.2 =
            [(cp0.1, cp0.2)] := rfl
        rw [h0, upsert_of_notMem _ hg]
        rw [hkt2] at hndc
        have hnd2 : (akeys tos).Nodup := by
          have : akeys (cp0 :: tos) = cp0.1 :: akeys tos := rfl
          rw [this] at hndc
          exact hndc.of_cons
        have hhd2 : cp0.1 ∉ akeys tos := by
          have : akeys (cp0 :: tos) = cp0.1 :: akeys tos := rfl
          rw [this] at hndc
          exact (List.nodup_cons.mp hndc).1
        have hdisj2 : ∀ c' ∈ akeys tos, c' ∉ akeys [(cp0.1, cp0.2)] := by
          intro c' hc'
          simp [akeys]
          intro hcon
          exact hhd2 (hcon ▸ hc')
        rw [innerFold2 tos t [(cp0.1, cp0.2)] hg hdisj2 hnd2]
        have : (cp0.1, cp0.2) :: tos = gc.2 := by rw [hkt2]
        simp only [List.cons_append, List.nil_append] at this ⊢
        rw [this]
      rw [hstep]
      have hdisj' : ∀ g ∈ akeys rest, g ∉ akeys (t ++ [gc]) := by
        intro g hg'
        unfold akeys
        rw [List.map_append]
        intro hcon
        rcases List.mem_append.mp hcon with hcon | hcon
        · exact hdisj g (List.mem_cons_of_mem _ hg') hcon
        · simp at hcon
          exact hhd (hcon ▸ hg')
      rw [outerFold2 rest (t ++ [gc]) hdisj' hnd'
        (fun gc' hgc' => hin gc' (List.mem_cons_of_mem _ hgc'))]
      have : (gc :: rest).filter (fun gc => !gc.2.isEmpty) =
          gc :: rest.filter (fun gc => !gc.2.isEmpty) := by
        rw [List.filter_cons]
        simp [List.isEmpty_iff, hkt2]
      rw [this]
      simp

theorem foldl_proj_const {α σ τ : Type} (prj : σ → τ) (step : σ → α → σ)
    (hstep : ∀ s x, prj (step s x) = prj s) :
    ∀ (l : List α) (s : σ), prj (l.foldl step s) = prj s
  | [], s => rfl
  | x :: l, s => by
    rw [List.foldl_cons, foldl_proj_const prj step hstep l, hstep]

theorem foldl_proj_const' {α σ τ : Type} (prj : σ → τ) {step : σ → α → σ}
    {l : List α} {s : σ} {X : τ}
    (hstep : ∀ ss x, prj (step ss x) = prj ss) (hs : prj s = X) :
    prj (l.foldl step s) = X := by
  rw [foldl_proj_const prj step hstep, hs]

/-- Replaying a three-level table through a model-level `add` operation
projects to the pure association-list fold. -/
theorem fold3_hom (prj : MarkovModel → TransTable)
    (addf : MarkovModel → String → String → String → ℚ → MarkovModel)
    (hadd : ∀ s g k c v, prj (addf s g k c v) = upsert3 (prj s) g k c v) :
    ∀ (d : TransTable) (s : MarkovModel),
      prj (d.foldl (fun m gc => gc.2.foldl (fun m2 kt => kt.2.foldl
          (fun m3 cp => addf m3 gc.1 kt.1 cp.1 cp.2) m2) m) s) =
        d.foldl (fun acc gc => gc.2.foldl (fun a2 kt => kt.2.foldl
          (fun a3 cp => upsert3 a3 gc.1 kt.1 cp.1 cp.2) a2) acc) (prj s) := by
  have h1 : ∀ (tos : List (String × ℚ)) (g k : String) (s : MarkovModel),
      prj (tos.foldl (fun m3 cp => addf m3 g k cp.1 cp.2) s) =
        tos.foldl (fun a3 cp => upsert3 a3 g k cp.1 cp.2) (prj s) := by
    intro tos
    induction tos with
    | nil => intro g k s; rfl
    | cons cp tos ih =>
      intro g k s
      rw [List.foldl_cons, List.foldl_cons, ih, hadd]
  have h2 : ∀ (ctxs : List (String × List (String × ℚ))) (g : String)
      (s : MarkovModel),
      prj (ctxs.foldl (fun m2 kt => kt.2.foldl
          (fun m3 cp => addf m3 g kt.1 cp.1 cp.2) m2) s) =
        ctxs.foldl (fun a2 kt => kt.2.foldl
          (fun a3 cp => upsert3 a3 g kt.1 cp.1 cp.2) a2) (prj s) := by
    intro ctxs
    induction ctxs with
    | nil => intro g s; rfl
    | cons kt ctxs ih =>
      intro g s
      rw [List.foldl_cons, List.foldl_cons, ih, h1]
  intro d
  induction d with
  | nil => intro s; rfl
  | cons gc d ih =>
    intro s
    rw [List.foldl_cons, List.foldl_cons, ih, h2]

/-- Same for the two-level chord-frequency table. -/
theorem fold2_hom (prj : MarkovModel → List (String × List (String × ℚ)))
    (addf : MarkovModel → String → String → ℚ → MarkovModel)
    (hadd : ∀ s c g v, prj (addf s c g v) =
      upsert (prj s) g (upsert (getD (prj s) g []) c v)) :
    ∀ (d : List (String × List (String × ℚ))) (s : MarkovModel),
      prj (d.foldl (fun m gc => gc.2.foldl
          (fun m2 cf => addf m2 cf.1 gc.1 cf.2) m) s) =
        d.foldl (fun acc gc => gc.2.foldl (fun a2 cp =>
          upsert a2 gc.1 (upsert (getD a2 gc.1 []) cp.1 cp.2)) acc)
          (prj s) := by
  have h1 : ∀ (tos : List (String × ℚ)) (g : String) (s : MarkovModel),
      prj (tos.foldl (fun m2 cf => addf m2 cf.1 g cf.2) s) =
        tos.foldl (fun a2 cp => upsert a2 g (upsert (getD a2 g []) cp.1
          cp.2)) (prj s) := by
    intro tos
    induction tos with
    | nil => intro g s; rfl
    | cons cp tos ih =>
      intro g s
      rw [List.foldl_cons, List.foldl_cons, ih, hadd]
  intro d
  induction d with
  | nil => intro s; rfl
  | cons gc d ih =>
    intro s
    rw [List.foldl_cons, List.foldl_cons, ih, h1]

/-- The four tables a `from_dict` replay produces, each as a pure list
fold over the serialized form. -/
theorem from_dict_transitions (d : ModelDict) :
    (MarkovModel.from_dict d).transitions =
      d.transitions.foldl (fun acc gc => gc.2.foldl (fun a2 kt =>
        kt.2.foldl (fun a3 cp => upsert3 a3 gc.1 kt.1 cp.1 cp.2) a2) acc)
        [] := by
  unfold MarkovModel.from_dict
  dsimp only
  apply foldl_proj_const' MarkovModel.transitions
  · intro ss gc
    apply foldl_proj_const' MarkovModel.transitions
    · intro s2 cf
      rfl
    rfl
  apply foldl_proj_const' MarkovModel.transitions
  · intro ss gc
    apply foldl_proj_const' MarkovModel.transitions
    · intro s2 kt
      apply foldl_proj_const' MarkovModel.transitions
      · intro s3 cp
        rfl
      rfl
    rfl
  apply foldl_proj_const' MarkovModel.transitions
  · intro ss gc
    apply foldl_proj_const' MarkovModel.transitions
    · intro s2 kt
      apply foldl_proj_const' MarkovModel.transitions
      · intro s3 cp
        rfl
      rfl
    rfl
  exact fold3_hom MarkovModel.transitions
    (fun s g k c v => s.add_transition k c g v) (fun _ _ _ _ _ => rfl)
    d.transitions MarkovModel.empty

theorem from_dict_bigram (d : ModelDict) :
    (MarkovModel.from_dict d).bigram_transitions =
      d.bigram_transitions.foldl (fun acc gc => gc.2.foldl (fun a2 kt =>
        kt.2.foldl (fun a3 cp => upsert3 a3 gc.1 kt.1 cp.1 cp.2) a2) acc)
        [] := by
  unfold MarkovModel.from_dict
  dsimp only
  apply foldl_proj_const' MarkovModel.bigram_transitions
  · intro ss gc
    apply foldl_proj_const' MarkovModel.bigram_transitions
    · intro s2 cf
      rfl
    rfl
  apply foldl_proj_const' MarkovModel.bigram_transitions
  · intro ss gc
    apply foldl_proj_const' MarkovModel.bigram_transitions
    · intro s2 kt
      apply foldl_proj_const' MarkovModel.bigram_transitions
      · intro s3 cp
        rfl
      rfl
    rfl
  rw [fold3_hom MarkovModel.bigram_transitions
    (fun s g k c v => s.add_bigram_transition k c g v) (fun _ _ _ _ _ => rfl)
    d.bigram_transitions]
  congr 1
  apply foldl_proj_const' MarkovModel.bigram_transitions
  · intro ss gc
    apply foldl_proj_const' MarkovModel.bigram_transitions
    · intro s2 kt
      apply foldl_proj_const' MarkovModel.bigram_transitions
      · intro s3 cp
        rfl
      rfl
    rfl
  rfl

theorem from_dict_trigram (d : ModelDict) :
    (MarkovModel.from_dict d).trigram_transitions =
      d.trigram_transitions.foldl (fun acc gc => gc.2.foldl (fun a2 kt =>
        kt.2.foldl (fun a3 cp => upsert3 a3 gc.1 kt.1 cp.1 cp.2) a2) acc)
        [] := by
  unfold MarkovModel.from_dict
  dsimp only
  apply foldl_proj_const' MarkovModel.trigram_transitions
  · intro ss gc
    apply foldl_proj_const' MarkovModel.trigram_transitions
    · intro s2 cf
      rfl
    rfl
  rw [fold3_hom MarkovModel.trigram_transitions
    (fun s g k c v => s.add_trigram_transition k c g v)
    (fun _ _ _ _ _ => rfl) d.trigram_transitions]
  congr 1
  apply foldl_proj_const' MarkovModel.trigram_transitions
  · intro ss gc
    apply foldl_proj_const' MarkovModel.trigram_transitions
    · intro s2 kt
      apply foldl_proj_const' MarkovModel.trigram_transitions
      · intro s3 cp
        rfl
      rfl
    rfl
  apply foldl_proj_const' MarkovModel.trigram_transitions
  · intro ss gc
    apply foldl_proj_const' MarkovModel.trigram_transitions
    · intro s2 kt
      apply foldl_proj_const' MarkovModel.trigram_transitions
      · intro s3 cp
        rfl
      rfl
    rfl
  rfl

theorem from_dict_cf (d : ModelDict) :
    (MarkovModel.from_dict d).chord_frequencies =
      d.chord_frequencies.foldl (fun acc gc => gc.2.foldl (fun a2 cp =>
        upsert a2 gc.1 (upsert (getD a2 gc.1 []) cp.1 cp.2)) acc) [] := by
  unfold MarkovModel.from_dict
  dsimp only
  rw [fold2_hom MarkovModel.chord_frequencies
    (fun s c g v => s.add_chord_frequency c g v) (fun _ _ _ _ => rfl)
    d.chord_frequencies]
  congr 1
  apply foldl_proj_const' MarkovModel.chord_frequencies
  · intro ss gc
    apply foldl_proj_const' MarkovModel.chord_frequencies
    · intro s2 kt
      apply foldl_proj_const' MarkovModel.chord_frequencies
      · intro s3 cp
        rfl
      rfl
    rfl
  apply foldl_proj_const' MarkovModel.chord_frequencies
  · intro ss gc
    apply foldl_proj_const' MarkovModel.chord_frequencies
    · intro s2 kt
      apply foldl_proj_const' MarkovModel.chord_frequencies
      · intro s3 cp
        rfl
      rfl
    rfl
  apply foldl_proj_const' MarkovModel.chord_frequencies
  · intro ss gc
    apply foldl_proj_const' MarkovModel.chord_frequencies
    · intro s2 kt
      apply foldl_proj_const' MarkovModel.chord_frequencies
      · intro s3 cp
        rfl
      rfl
    rfl
  rfl

theorem from_dict_totals (d : ModelDict) :
    (MarkovModel.from_dict d).genre_totals = d.genre_totals := rfl

/-- Dropping genres whose inner dict is empty never changes a lookup
through the genre (under distinct genre keys). -/
theorem alookup_filter_isEmpty {A : Type} :
    ∀ (d : List (String × List A)), (akeys d).Nodup → ∀ g : String,
      alookup (d.filter (fun gc => !gc.2.isEmpty)) g =
        (match alookup d g with
        | some v => if v.isEmpty then none else some v
        | none => none)
  | [], _, g => rfl
  | gc :: rest, hnd, g => by
    have hnd' : (akeys rest).Nodup := by
      have : akeys (gc :: rest) = gc.1 :: akeys rest := rfl
      rw [this] at hnd
      exact hnd.of_cons
    have hhd : gc.1 ∉ akeys rest := by
      have : akeys (gc :: rest) = gc.1 :: akeys rest := rfl
      rw [this] at hnd
      exact (List.nodup_cons.mp hnd).1
    by_cases hg : gc.1 = g
    · subst hg
      have hl : alookup (gc :: rest) gc.1 = some gc.2 := by
        obtain ⟨a, b⟩ := gc
        simp [alookup]
      rw [hl]
      by_cases he : gc.2.isEmpty
      · have hfc : (gc :: rest).filter (fun gc => !gc.2.isEmpty) =
            rest.filter (fun gc => !gc.2.isEmpty) := by
          rw [List.filter_cons]
          simp [he]
        rw [hfc, alookup_filter_isEmpty rest hnd' gc.1]
        rw [alookup_eq_none.mpr hhd]
        simp [he]
      · have hfc : (gc :: rest).filter (fun gc => !gc.2.isEmpty) =
            gc :: rest.filter (fun gc => !gc.2.isEmpty) := by
          rw [List.filter_cons]
          simp [he]
        rw [hfc]
        have hl2 : alookup (gc :: rest.filter (fun gc => !gc.2.isEmpty))
            gc.1 = some gc.2 := by
          obtain ⟨a, b⟩ := gc
          simp [alookup]
        rw [hl2]
        simp [he]
    · have hl : alookup (gc :: rest) g = alookup rest g := by
        obtain ⟨a, b⟩ := gc
        simp only at hg
        simp [alookup, hg]
      rw [hl]
      by_cases he : gc.2.isEmpty
      · have hfc : (gc :: rest).filter (fun gc => !gc.2.isEmpty) =
            rest.filter (fun gc => !gc.2.isEmpty) := by
          rw [List.filter_cons]
          simp [he]
        rw [hfc, alookup_filter_isEmpty rest hnd' g]
      · have hfc : (gc :: rest).filter (fun gc => !gc.2.isEmpty) =
            gc :: rest.filter (fun gc => !gc.2.isEmpty) := by
          rw [List.filter_cons]
          simp [he]
        rw [hfc]
        have hl2 : alookup (gc :: rest.filter (fun gc => !gc.2.isEmpty)) g =
            alookup (rest.filter (fun gc => !gc.2.isEmpty)) g := by
          obtain ⟨a, b⟩ := gc
          simp only at hg
          simp [alookup, hg]
        rw [hl2, alookup_filter_isEmpty rest hnd' g]

theorem alookup3_filter (d : TransTable) (hnd : (akeys d).Nodup)
    (g k c : String) :
    alookup3 (d.filter (fun gc => !gc.2.isEmpty)) g k c =
      alookup3 d g k c := by
  unfold alookup3
  rw [alookup_filter_isEmpty d hnd g]
  cases alookup d g with
  | none => rfl
  | some v =>
    by_cases he : v.isEmpty
    · have : v = [] := List.isEmpty_iff.mp he
      subst this
      simp
      rfl
    · simp [he]

theorem alookup2_filter (d : List (String × List (String × ℚ)))
    (hnd : (akeys d).Nodup) (g c : String) :
    alookup2 (d.filter (fun gc => !gc.2.isEmpty)) g c =
      alookup2 d g c := by
  unfold alookup2
  rw [alookup_filter_isEmpty d hnd g]
  cases alookup d g with
  | none => rfl
  | some v =>
    by_cases he : v.isEmpty
    · have : v = [] := List.isEmpty_iff.mp he
      subst this
      simp
      rfl
    · simp [he]

theorem akeys_prune (tbl : TransTable) (prune : Bool) (maxPer prec : ℕ)
    (minExport : ℚ) :
    akeys (pruneTransitions tbl prune maxPer prec minExport) = akeys tbl := by
  unfold pruneTransitions akeys
  rw [List.map_map]
  rfl

theorem akeys_filterMap_sublist {A B : Type}
    (f : String × A → Option (String × B))
    (hf : ∀ p q, f p = some q → q.1 = p.1) :
    ∀ l : List (String × A), (akeys (l.filterMap f)).Sublist (akeys l)
  | [] => List.Sublist.refl _
  | p :: t => by
    cases hfp : f p with
    | none =>
      rw [List.filterMap_cons_none hfp]
      exact (akeys_filterMap_sublist f hf t).cons _
    | some q =>
      rw [List.filterMap_cons_some hfp]
      have h1 : akeys (q :: t.filterMap f) = q.1 :: akeys (t.filterMap f) :=
        rfl
      have h2 : akeys (p :: t) = p.1 :: akeys t := rfl
      rw [h1, h2, hf p q hfp]
      exact (akeys_filterMap_sublist f hf t).cons₂ _

/-- The pruned tables `to_dict` emits satisfy exactly the shape hypotheses
of the rebuild lemmas: distinct keys at every level and no context left
with an empty inner dict (provided the per-context cap is positive). -/
theorem prune_facts (tbl : TransTable) (prune : Bool) (maxPer prec : ℕ)
    (minExport : ℚ) (h3 : NodupKeys3 tbl) (hmax : 0 < maxPer) :
    (akeys (pruneTransitions tbl prune maxPer prec minExport)).Nodup ∧
      ∀ gc ∈ pruneTransitions tbl prune maxPer prec minExport,
        (akeys gc.2).Nodup ∧
          ∀ kt ∈ gc.2, kt.2 ≠ [] ∧ (akeys kt.2).Nodup := by
  have hG : ∀ (cp q : String × ℚ),
      (if minExport ≤ cp.2 then some (cp.1, pyRoundPrec cp.2 prec)
        else none) = some q → q.1 = cp.1 := by
    intro cp q h
    by_cases hc : minExport ≤ cp.2
    · rw [if_pos hc] at h
      obtain rfl := Option.some.inj h
      rfl
    · rw [if_neg hc] at h
      exact absurd h (by simp)
  constructor
  · rw [akeys_prune]
    exact h3.1
  · intro gc hgc
    obtain ⟨gc0, hgc0, rfl⟩ := List.mem_map.mp hgc
    have hctx0 := (h3.2 gc0 hgc0).1
    have hinn0 := (h3.2 gc0 hgc0).2
    constructor
    · apply List.Nodup.sublist _ hctx0
      apply akeys_filterMap_sublist
      intro kt q h
      dsimp only at h
      by_cases h1 : kt.2.filterMap (fun cp =>
          if minExport ≤ cp.2 then some (cp.1, pyRoundPrec cp.2 prec)
          else none) = []
      · rw [if_pos h1] at h
        exact absurd h (by simp)
      · rw [if_neg h1] at h
        by_cases h2 : prune = true ∧ maxPer < (kt.2.filterMap (fun cp =>
            if minExport ≤ cp.2 then some (cp.1, pyRoundPrec cp.2 prec)
            else none)).length
        · rw [if_pos h2] at h
          obtain rfl := Option.some.inj h
          rfl
        · rw [if_neg h2] at h
          obtain rfl := Option.some.inj h
          rfl
    · intro kt' hkt'
      obtain ⟨kt, hktmem, hFkt⟩ := List.mem_filterMap.mp hkt'
      dsimp only at hFkt
      have hfltnd : (akeys (kt.2.filterMap (fun cp =>
          if minExport ≤ cp.2 then some (cp.1, pyRoundPrec cp.2 prec)
          else none))).Nodup :=
        List.Nodup.sublist (akeys_filterMap_sublist _ hG kt.2)
          (hinn0 kt hktmem)
      by_cases h1 : kt.2.filterMap (fun cp =>
          if minExport ≤ cp.2 then some (cp.1, pyRoundPrec cp.2 prec)
          else none) = []
      · rw [if_pos h1] at hFkt
        exact absurd hFkt (by simp)
      · rw [if_neg h1] at hFkt
        by_cases h2 : prune = true ∧ maxPer < (kt.2.filterMap (fun cp =>
            if minExport ≤ cp.2 then some (cp.1, pyRoundPrec cp.2 prec)
            else none)).length
        · rw [if_pos h2] at hFkt
          obtain rfl := Option.some.inj hFkt
          dsimp only
          have hperm := sortByDesc_perm (fun cp : String × ℚ => cp.2)
            (kt.2.filterMap (fun cp =>
              if minExport ≤ cp.2 then some (cp.1, pyRoundPrec cp.2 prec)
              else none))
          constructor
          · intro hcon
            have hlen := congrArg List.length hcon
            rw [List.length_take, hperm.length_eq] at hlen
            simp only [List.length_nil] at hlen
            have hlt := h2.2
            omega
          · have hpermk := hperm.map Prod.fst
            have hsortnd : (akeys (sortByDesc (fun cp : String × ℚ => cp.2)
                (kt.2.filterMap (fun cp =>
                  if minExport ≤ cp.2 then
                    some (cp.1, pyRoundPrec cp.2 prec)
                  else none)))).Nodup :=
              hpermk.nodup_iff.mpr hfltnd
            have htake : akeys ((sortByDesc (fun cp : String × ℚ => cp.2)
                (kt.2.filterMap (fun cp =>
                  if minExport ≤ cp.2 then
                    some (cp.1, pyRoundPrec cp.2 prec)
                  else none))).take maxPer) =
                (akeys (sortByDesc (fun cp : String × ℚ => cp.2)
                  (kt.2.filterMap (fun cp =>
                    if minExport ≤ cp.2 then
                      some (cp.1, pyRoundPrec cp.2 prec)
                    else none)))).take maxPer := by
              unfold akeys
              rw [List.map_take]
            rw [htake]
            exact List.Nodup.sublist (List.take_sublist _ _) hsortnd
        · rw [if_neg h2] at hFkt
          obtain rfl := Option.some.inj hFkt
          exact ⟨h1, hfltnd⟩

/-- C2 (amended): loading the serialized form rebuilds, lookup for lookup,
exactly the exported tables: order 1 is the original filtered by
`min_export_probability` and rounded to `probability_precision` decimals
(no per-context cap), orders 2/3 additionally capped to the top
`max_per_context` entries per context; chord frequencies and genre totals
survive unchanged. The order-1 table is therefore *not* bit-for-bit
identical to the original (see the counterexample). -/
theorem c2_roundtrip_is_pruned_tables (m : MarkovModel)
    (hwf : m.WellFormed) :
    (MarkovModel.from_dict (m.to_dict 15 4 (5/1000))).genre_totals =
        m.genre_totals ∧
      (∀ g k c,
        alookup3 (MarkovModel.from_dict
            (m.to_dict 15 4 (5/1000))).transitions g k c =
          alookup3 (pruneTransitions m.transitions false 15 4 (5/1000))
            g k c) ∧
      (∀ g k c,
        alookup3 (MarkovModel.from_dict
            (m.to_dict 15 4 (5/1000))).bigram_transitions g k c =
          alookup3 (pruneTransitions m.bigram_transitions true 15 4
            (5/1000)) g k c) ∧
      (∀ g k c,
        alookup3 (MarkovModel.from_dict
            (m.to_dict 15 4 (5/1000))).trigram_transitions g k c =
          alookup3 (pruneTransitions m.trigram_transitions true 15 4
            (5/1000)) g k c) ∧
      (∀ g c,
        alookup2 (MarkovModel.from_dict
            (m.to_dict 15 4 (5/1000))).chord_frequencies g c =
          alookup2 m.chord_frequencies g c) := by
  obtain ⟨hwf1, hwf2, hwf3, hwfc, _⟩ := hwf
  refine ⟨rfl, ?_, ?_, ?_, ?_⟩
  · intro g k c
    rw [from_dict_transitions]
    have hdt : (m.to_dict 15 4 (5/1000)).transitions =
        pruneTransitions m.transitions false 15 4 (5/1000) := rfl
    rw [hdt]
    obtain ⟨hpnd, hpin⟩ := prune_facts m.transitions false 15 4 (5/1000)
      hwf1 (by norm_num)
    rw [outerFold3 _ [] (by simp [akeys]) hpnd hpin, List.nil_append]
    exact alookup3_filter _ hpnd g k c
  · intro g k c
    rw [from_dict_bigram]
    have hdt : (m.to_dict 15 4 (5/1000)).bigram_transitions =
        pruneTransitions m.bigram_transitions true 15 4 (5/1000) := rfl
    rw [hdt]
    obtain ⟨hpnd, hpin⟩ := prune_facts m.bigram_transitions true 15 4
      (5/1000) hwf2 (by norm_num)
    rw [outerFold3 _ [] (by simp [akeys]) hpnd hpin, List.nil_append]
    exact alookup3_filter _ hpnd g k c
  · intro g k c
    rw [from_dict_trigram]
    have hdt : (m.to_dict 15 4 (5/1000)).trigram_transitions =
        pruneTransitions m.trigram_transitions true 15 4 (5/1000) := rfl
    rw [hdt]
    obtain ⟨hpnd, hpin⟩ := prune_facts m.trigram_transitions true 15 4
      (5/1000) hwf3 (by norm_num)
    rw [outerFold3 _ [] (by simp [akeys]) hpnd hpin, List.nil_append]
    exact alookup3_filter _ hpnd g k c
  · intro g c
    rw [from_dict_cf]
    have hdc : (m.to_dict 15 4 (5/1000)).chord_frequencies =
        m.chord_frequencies := rfl
    rw [hdc]
    rw [outerFold2 _ [] (by simp [akeys]) hwfc.1 hwfc.2, List.nil_append]
    exact alookup2_filter _ hwfc.1 g c

/-- Witness for `c2_roundtrip_is_pruned_tables` at a concrete well-formed
model. -/
theorem c2_roundtrip_witness :
    exModel.WellFormed ∧
      alookup3 (MarkovModel.from_dict
          (exModel.to_dict 15 4 (5/1000))).transitions "pop" "C" "G" =
        alookup3 (pruneTransitions exModel.transitions false 15 4 (5/1000))
          "pop" "C" "G" :=
  ⟨by unfold MarkovModel.WellFormed NodupKeys3 NodupKeys2; decide,
    (c2_roundtrip_is_pruned_tables exModel
      (by unfold MarkovModel.WellFormed NodupKeys3 NodupKeys2;
          decide)).2.1 "pop" "C" "G"⟩

/-- C2 counterexample: the order-1 export is *not* bit-for-bit: the
transition C→F with probability 0.004 (< `min_export_probability` = 0.005)
is present in the model but absent after `load(save(model))`. -/
theorem c2_counterexample :
    alookup3 lowProbModel.transitions "pop" "C" "F" = some (1/250) ∧
      alookup3 (MarkovModel.from_dict (lowProbModel.to_dict 15 4
        (5/1000))).transitions "pop" "C" "F" = none := by
  constructor
  · with_unfolding_all decide
  · with_unfolding_all decide

/-! ## C4: stability of the quality classification under re-normalization

The backbone is a characterization of `parseQuality`'s possible outputs:
either the input is passed through verbatim (and is then `no3d`-free and
nonempty), or the output is one of finitely many fixed strings, or the
input was `min` + an `add`-suffix and the output is `m` + that suffix. -/

theorem lpre_cons {p : Char} {ps l : List Char} (h : lpre (p :: ps) l = true) :
    ∃ t, l = p :: t ∧ lpre ps t = true := by
  cases l with
  | nil => simp [lpre] at h
  | cons x xs =>
    by_cases hpx : p = x
    · subst hpx
      refine ⟨xs, rfl, ?_⟩
      simpa [lpre] using h
    · simp [lpre, hpx] at h

theorem lpre_shape3 {a b c : Char} {q : List Char}
    (h : lpre [a, b, c] q = true) : q = a :: b :: c :: q.drop 3 := by
  obtain ⟨t1, rfl, h1⟩ := lpre_cons h
  obtain ⟨t2, rfl, h2⟩ := lpre_cons h1
  obtain ⟨t3, rfl, _⟩ := lpre_cons h2
  rfl

theorem containsNo3d_tail {c : Char} {t : List Char}
    (h : containsNo3d (c :: t) = false) : containsNo3d t = false := by
  unfold containsNo3d lowerL at h ⊢
  rw [List.map_cons] at h
  unfold hasSub at h
  simp only [Bool.or_eq_false_iff] at h
  exact h.2

theorem containsNo3d_cons (c : Char) (t : List Char)
    (h : Char.toLower c ≠ 'n') :
    containsNo3d (c :: t) = containsNo3d t := by
  unfold containsNo3d lowerL
  rw [List.map_cons]
  unfold hasSub
  have h1 : lpre ['n', 'o', '3', 'd']
      (Char.toLower c :: List.map Char.toLower t) = false := by
    unfold lpre
    rw [if_neg (fun hc => h hc.symm)]
  rw [h1]
  simp only [Bool.false_or]
  cases List.map Char.toLower t <;> rfl

/-- The output characterization of `parse_quality`. -/
theorem pq_cases (q : List Char) :
    (parseQuality q = q ∧ containsNo3d q = false ∧ q ≠ []) ∨
    parseQuality q ∈ ([['m', 'a', 'j'], ['5'], ['m', '7'], ['m', 'M', '7'],
      ['m'], ['d', 'i', 'm', '7'], ['d', 'i', 'm'], ['a', 'u', 'g'],
      ['M', '7'], ['M', '9'], ['7'], ['9'], ['1', '1'], ['1', '3']] :
        List (List Char)) ∨
    (∃ rest, q = 'm' :: 'i' :: 'n' :: rest ∧
      lpre ['a', 'd', 'd'] rest = true ∧ containsNo3d q = false ∧
      parseQuality q = 'm' :: rest) := by
  by_cases h0 : q = []
  · right
    left
    simp [parseQuality, h0]
  by_cases h1 : containsNo3d q = true
  · right
    left
    simp [parseQuality, h0, h1]
  have h1' : containsNo3d q = false := by
    simpa using h1
  by_cases h2 : lpre ['m', 'i', 'n'] q = true
  · by_cases h2a : q.drop 3 = ['7']
    · right
      left
      simp [parseQuality, h0, h1, h2, h2a]
    by_cases h2b : q.drop 3 = ['m', 'a', 'j', '7']
    · right
      left
      simp [parseQuality, h0, h1, h2, h2a, h2b]
    by_cases h2c : lpre ['a', 'd', 'd'] (q.drop 3) = true
    · right
      right
      refine ⟨q.drop 3, lpre_shape3 h2, h2c, h1', ?_⟩
      simp [parseQuality, h0, h1, h2, h2a, h2b, h2c]
    · right
      left
      simp [parseQuality, h0, h1, h2, h2a, h2b, h2c]
  by_cases h3 : lpre ['d', 'i', 'm'] q = true
  · by_cases h3a : q.drop 3 = ['7']
    · right
      left
      simp [parseQuality, h0, h1, h2, h3, h3a]
    · right
      left
      simp [parseQuality, h0, h1, h2, h3, h3a]
  by_cases h4 : lpre ['a', 'u', 'g'] q = true
  · right
    left
    simp [parseQuality, h0, h1, h2, h3, h4]
  by_cases h5 : lpre ['s', 'u', 's'] q = true
  · left
    refine ⟨?_, h1', h0⟩
    simp [parseQuality, h0, h1, h2, h3, h4, h5]
  by_cases h6 : lpre ['m', 'a', 'j'] q = true
  · by_cases h6a : q.drop 3 = ['7']
    · right
      left
      simp [parseQuality, h0, h1, h2, h3, h4, h5, h6, h6a]
    by_cases h6b : q.drop 3 = ['9']
    · right
      left
      simp [parseQuality, h0, h1, h2, h3, h4, h5, h6, h6a, h6b]
    · right
      left
      simp [parseQuality, h0, h1, h2, h3, h4, h5, h6, h6a, h6b]
  by_cases h7 : q = ['7']
  · subst h7
    right
    left
    decide
  by_cases h8 : q = ['9']
  · subst h8
    right
    left
    decide
  by_cases h9 : q = ['1', '1']
  · subst h9
    right
    left
    decide
  by_cases h10 : q = ['1', '3']
  · subst h10
    right
    left
    decide
  by_cases h11 : lpre ['a', 'd', 'd'] q = true
  · left
    refine ⟨?_, h1', h0⟩
    simp [parseQuality, h0, h1, h2, h3, h4, h5, h6, h7, h8, h9, h10, h11]
  · left
    refine ⟨?_, h1', h0⟩
    simp [parseQuality, h0, h1, h2, h3, h4, h5, h6, h7, h8, h9, h10, h11]

theorem parseQuality_madd (t : List Char)
    (h : containsNo3d ('m' :: 'i' :: 'n' :: 'a' :: 'd' :: 'd' :: t) = false) :
    parseQuality ('m' :: 'a' :: 'd' :: 'd' :: t) =
      'm' :: 'a' :: 'd' :: 'd' :: t := by
  have ht : containsNo3d t = false :=
    containsNo3d_tail (containsNo3d_tail (containsNo3d_tail
      (containsNo3d_tail (containsNo3d_tail (containsNo3d_tail h)))))
  have hm : containsNo3d ('m' :: 'a' :: 'd' :: 'd' :: t) = false := by
    rw [containsNo3d_cons 'm' _ (by decide), containsNo3d_cons 'a' _ (by decide),
      containsNo3d_cons 'd' _ (by decide), containsNo3d_cons 'd' _ (by decide)]
    exact ht
  simp +decide [parseQuality, hm, lpre]

theorem parseQuality_hash (t : List Char) (h : containsNo3d t = false) :
    parseQuality ('#' :: t) = '#' :: t := by
  have hm : containsNo3d ('#' :: t) = false := by
    rw [containsNo3d_cons '#' _ (by decide)]
    exact h
  simp +decide [parseQuality, hm, lpre]

theorem parseQuality_idem (q : List Char) :
    parseQuality (parseQuality q) = parseQuality q := by
  rcases pq_cases q with ⟨hq, _, _⟩ | hmem | ⟨rest, hq, hadd, hno3d, hout⟩
  · rw [hq]
    exact hq
  · generalize parseQuality q = v at hmem ⊢
    fin_cases hmem <;> decide
  · obtain ⟨t1, rfl, ha1⟩ := lpre_cons hadd
    obtain ⟨t2, rfl, ha2⟩ := lpre_cons ha1
    obtain ⟨t3, rfl, _⟩ := lpre_cons ha2
    rw [hout]
    subst hq
    exact parseQuality_madd t3 hno3d

theorem pq_ne_nil (q : List Char) : parseQuality q ≠ [] := by
  rcases pq_cases q with ⟨hq, _, h0⟩ | hmem | ⟨rest, hq, hadd, hno3d, hout⟩
  · rw [hq]
    exact h0
  · generalize parseQuality q = v at hmem ⊢
    fin_cases hmem <;> decide
  · rw [hout]
    simp

theorem pq_no3d (q : List Char) : containsNo3d (parseQuality q) = false := by
  rcases pq_cases q with ⟨hq, hn, _⟩ | hmem | ⟨rest, hq, hadd, hno3d, hout⟩
  · rw [hq]
    exact hn
  · generalize parseQuality q = v at hmem ⊢
    fin_cases hmem <;> decide
  · obtain ⟨t1, rfl, ha1⟩ := lpre_cons hadd
    obtain ⟨t2, rfl, ha2⟩ := lpre_cons ha1
    obtain ⟨t3, rfl, _⟩ := lpre_cons ha2
    rw [hout]
    subst hq
    have ht : containsNo3d t3 = false :=
      containsNo3d_tail (containsNo3d_tail (containsNo3d_tail
        (containsNo3d_tail (containsNo3d_tail (containsNo3d_tail hno3d)))))
    rw [containsNo3d_cons 'm' _ (by decide), containsNo3d_cons 'a' _ (by decide),
      containsNo3d_cons 'd' _ (by decide), containsNo3d_cons 'd' _ (by decide)]
    exact ht

theorem pq_head (q : List Char)
    (hq : ∀ c : Char, q.head? = some c → ¬(c = 's' ∨ c = 'b')) :
    ∀ c : Char, (parseQuality q).head? = some c → ¬(c = 's' ∨ c = 'b') := by
  rcases pq_cases q with ⟨hq1, _, _⟩ | hmem | ⟨rest, hq1, hadd, hno3d, hout⟩
  · rw [hq1]
    exact hq
  · generalize parseQuality q = v at hmem ⊢
    fin_cases hmem <;>
      (intro c hc
       simp at hc
       subst hc
       decide)
  · rw [hout]
    intro c hc
    simp at hc
    subst hc
    decide

theorem pq_no_slash (q : List Char) (h : ('/' : Char) ∉ q) :
    ('/' : Char) ∉ parseQuality q := by
  rcases pq_cases q with ⟨hq1, _, _⟩ | hmem | ⟨rest, hq1, hadd, hno3d, hout⟩
  · rw [hq1]
    exact h
  · generalize parseQuality q = v at hmem ⊢
    fin_cases hmem <;> decide
  · rw [hout]
    subst hq1
    intro hc
    rcases List.mem_cons.mp hc with h1 | h1
    · exact absurd h1 (by decide)
    · exact h (List.mem_cons_of_mem _ (List.mem_cons_of_mem _
        (List.mem_cons_of_mem _ h1)))

theorem splitSlash_snd_none : ∀ s : List Char,
    (splitSlash s).2 = none ↔ ('/' : Char) ∉ s
  | [] => by simp [splitSlash]
  | c :: t => by
    by_cases hc : c = '/'
    · subst hc
      simp [splitSlash]
    · simp [splitSlash, hc, splitSlash_snd_none t, Ne.symm hc]

theorem splitSlash_no_slash : ∀ s : List Char,
    ('/' : Char) ∉ s → splitSlash s = (s, none)
  | [] => fun _ => rfl
  | c :: t => fun h => by
    have hc : ¬ c = '/' := fun hcc => h (by simp [hcc])
    have ht := splitSlash_no_slash t (fun hm => h (List.mem_cons_of_mem _ hm))
    simp [splitSlash, hc, ht]

theorem splitSlash_fst_no_slash : ∀ s : List Char,
    ('/' : Char) ∉ (splitSlash s).1
  | [] => by simp [splitSlash]
  | c :: t => by
    by_cases hc : c = '/'
    · subst hc
      simp [splitSlash]
    · intro hm
      rw [show splitSlash (c :: t) = (c :: (splitSlash t).1, (splitSlash t).2)
        from by simp [splitSlash, hc]] at hm
      rcases List.mem_cons.mp hm with h1 | h1
      · exact hc h1.symm
      · exact splitSlash_fst_no_slash t h1

theorem splitSlash_fst_append (s z : List Char) (r : List Char)
    (h : (splitSlash s).2 = some r) :
    (splitSlash (s ++ z)).1 = (splitSlash s).1 := by
  induction s with
  | nil => simp [splitSlash] at h
  | cons c t ih =>
    by_cases hc : c = '/'
    · subst hc
      simp [splitSlash]
    · have h' : (splitSlash t).2 = some r := by
        simpa [splitSlash, hc] using h
      simp [splitSlash, hc, ih h']

theorem noteLetter_ne_slash (c : Char) (h : noteLetter c = true) :
    ¬ c = '/' := by
  simp [noteLetter] at h
  rcases h with h | h | h | h | h | h | h <;> subst h <;> decide

theorem parse_fail_append (y : List Char)
    (h : parseRootTok (splitSlash y).1 = none) :
    parseRootTok (splitSlash (y ++ unknownQ)).1 = none := by
  by_cases hs : ('/' : Char) ∈ y
  · have h2 : (splitSlash y).2 ≠ none := fun hn =>
      ((splitSlash_snd_none y).mp hn) hs
    obtain ⟨r, hr⟩ := Option.ne_none_iff_exists'.mp h2
    rw [splitSlash_fst_append y unknownQ r hr]
    exact h
  · have hy := splitSlash_no_slash y hs
    have h' : parseRootTok y = none := by
      rw [hy] at h
      simpa using h
    have hws : ('/' : Char) ∉ y ++ unknownQ := by
      intro hm
      rcases List.mem_append.mp hm with h1 | h1
      · exact hs h1
      · exact absurd h1 (by decide)
    rw [splitSlash_no_slash (y ++ unknownQ) hws]
    show parseRootTok (y ++ unknownQ) = none
    cases y with
    | nil => decide
    | cons c t =>
      have hc : ¬ (noteLetter c = true) := by
        intro hnl
        cases t with
        | nil => simp [parseRootTok, hnl] at h'
        | cons m r2 =>
          by_cases hm2 : m = 's' ∨ m = 'b' <;>
            simp [parseRootTok, hnl, hm2] at h'
      simp [parseRootTok, hc]

theorem normalizeNote_single (c : Char) : normalizeNote [c] = [c] := by
  simp [normalizeNote]

theorem normalizeNote_b (c : Char) : normalizeNote [c, 'b'] = [c, 'b'] := by
  simp +decide [normalizeNote]

/-- Decomposition of a successful `parse_chord_components`. -/
theorem pcc_some {y : List Char} {r q : List Char} {b : Option (List Char)}
    (h : parseChordComponents y = some (r, q, b)) :
    ∃ tok qs, parseRootTok (splitSlash y).1 = some (tok, qs) ∧
      r = normalizeNote tok ∧ q = parseQuality qs ∧
      b = (splitSlash y).2.map normalizeNote := by
  cases hp : parseRootTok (splitSlash y).1 with
  | none =>
    rw [parseChordComponents] at h
    rw [hp] at h
    simp at h
  | some tq =>
    obtain ⟨tok, qs⟩ := tq
    refine ⟨tok, qs, rfl, ?_⟩
    rw [parseChordComponents] at h
    rw [hp] at h
    simp at h
    exact ⟨h.1.symm, h.2.1.symm, h.2.2.symm⟩

/-- A failed `parse_chord_components` is exactly a failed root match. -/
theorem pcc_none {y : List Char} :
    parseChordComponents y = none ↔
      parseRootTok (splitSlash y).1 = none := by
  cases hp : parseRootTok (splitSlash y).1 with
  | none => simp [parseChordComponents, hp]
  | some tq =>
    obtain ⟨tok, qs⟩ := tq
    simp [parseChordComponents, hp]

/-- Decomposition of a successful root match. -/
theorem prt_some {s tok qs : List Char}
    (h : parseRootTok s = some (tok, qs)) :
    (∃ c, noteLetter c = true ∧ tok = [c] ∧ qs = [] ∧ s = [c]) ∨
    (∃ c m rest2, noteLetter c = true ∧ (m = 's' ∨ m = 'b') ∧
      tok = [c, m] ∧ qs = rest2 ∧ s = c :: m :: rest2) ∨
    (∃ c m rest2, noteLetter c = true ∧ ¬(m = 's' ∨ m = 'b') ∧
      tok = [c] ∧ qs = m :: rest2 ∧ s = c :: m :: rest2) := by
  cases s with
  | nil => simp [parseRootTok] at h
  | cons c rest =>
    by_cases hnl : noteLetter c = true
    · cases rest with
      | nil =>
        simp [parseRootTok, hnl] at h
        exact Or.inl ⟨c, hnl, h.1.symm, h.2, rfl⟩
      | cons m rest2 =>
        by_cases hm : m = 's' ∨ m = 'b'
        · simp [parseRootTok, hnl, hm] at h
          exact Or.inr (Or.inl ⟨c, m, rest2, hnl, hm, h.1.symm, h.2.symm, rfl⟩)
        · simp [parseRootTok, hnl, hm] at h
          exact Or.inr (Or.inr ⟨c, m, rest2, hnl, hm, h.1.symm, h.2.symm, rfl⟩)
    · simp [parseRootTok, hnl] at h

/-- Computing `parse_chord_components` on a one-letter root followed by a
slash-free quality whose head is not a root modifier. -/
theorem pcc_shape1 (c : Char) (q : List Char) (hnl : noteLetter c = true)
    (hq : ('/' : Char) ∉ q)
    (hhd : ∀ m t, q = m :: t → ¬(m = 's' ∨ m = 'b')) :
    parseChordComponents (c :: q) = some ([c], parseQuality q, none) := by
  have hc : ¬ c = '/' := noteLetter_ne_slash c hnl
  have hsl : splitSlash (c :: q) = (c :: q, none) := by
    apply splitSlash_no_slash
    intro hm
    rcases List.mem_cons.mp hm with h1 | h1
    · exact hc h1.symm
    · exact hq h1
  have hprt : parseRootTok (c :: q) = some ([c], q) := by
    cases q with
    | nil => simp [parseRootTok, hnl]
    | cons m t => simp [parseRootTok, hnl, hhd m t rfl]
  rw [parseChordComponents]
  rw [hsl]
  dsimp only
  rw [hprt]
  dsimp only [Option.map]
  rw [normalizeNote_single]

/-- Computing `parse_chord_components` on a modified root (sharp `s` or
flat `b`) followed by a slash-free quality. -/
theorem pcc_shape2 (c m : Char) (q : List Char) (hnl : noteLetter c = true)
    (hm : m = 's' ∨ m = 'b') (hq : ('/' : Char) ∉ q) :
    parseChordComponents (c :: m :: q) =
      some (normalizeNote [c, m], parseQuality q, none) := by
  have hc : ¬ c = '/' := noteLetter_ne_slash c hnl
  have hmne : ¬ m = '/' := by
    rcases hm with h1 | h1 <;> subst h1 <;> decide
  have hsl : splitSlash (c :: m :: q) = (c :: m :: q, none) := by
    apply splitSlash_no_slash
    intro hmem
    rcases List.mem_cons.mp hmem with h1 | h1
    · exact hc h1.symm
    rcases List.mem_cons.mp h1 with h2 | h2
    · exact hmne h2.symm
    · exact hq h2
  have hprt : parseRootTok (c :: m :: q) = some ([c, m], q) := by
    simp [parseRootTok, hnl, hm]
  rw [parseChordComponents]
  rw [hsl]
  dsimp only
  rw [hprt]
  dsimp only [Option.map]

/-- Re-normalizing the simple form of a chord with a plain one-letter root
reproduces it. -/
theorem norm_idem_plain (c : Char) (qs : List Char) (b : Option (List Char))
    (hnl : noteLetter c = true) (hqs_ns : ('/' : Char) ∉ qs)
    (hhd : ∀ c' : Char, qs.head? = some c' → ¬(c' = 's' ∨ c' = 'b')) :
    normalizeChordSimple (toSimple ⟨[c], parseQuality qs, b, []⟩)
      = toSimple ⟨[c], parseQuality qs, b, []⟩ := by
  have hq_ns : ('/' : Char) ∉ parseQuality qs := pq_no_slash qs hqs_ns
  have hq_hd := pq_head qs hhd
  have h_idem := parseQuality_idem qs
  by_cases hqm : parseQuality qs = ['m', 'a', 'j']
  · have hts : toSimple ⟨[c], parseQuality qs, b, []⟩ = [c] := by
      simp [toSimple, hqm]
    rw [hts]
    have hp := pcc_shape1 c [] hnl (by simp) (by intro m t ht; simp at ht)
    rw [normalizeChordSimple, normalizeChord, hp]
    dsimp only
    rw [show parseQuality [] = ['m', 'a', 'j'] from by decide]
    simp [toSimple]
  · have hts : toSimple ⟨[c], parseQuality qs, b, []⟩ =
        c :: parseQuality qs := by
      simp [toSimple, hqm]
    rw [hts]
    have hp := pcc_shape1 c (parseQuality qs) hnl hq_ns
      (fun m t ht => hq_hd m (by rw [ht]; rfl))
    rw [normalizeChordSimple, normalizeChord, hp]
    dsimp only
    rw [toSimple]
    dsimp only
    rw [h_idem, if_neg hqm]
    rfl

/-- Re-normalizing the simple form of a chord with a modified root that
`NOTE_MAPPING` leaves alone reproduces it. -/
theorem norm_idem_mod (c m : Char) (qs : List Char) (b : Option (List Char))
    (hnl : noteLetter c = true) (hm : m = 's' ∨ m = 'b')
    (hroot : normalizeNote [c, m] = [c, m]) (hqs_ns : ('/' : Char) ∉ qs) :
    normalizeChordSimple (toSimple ⟨normalizeNote [c, m], parseQuality qs, b, []⟩)
      = toSimple ⟨normalizeNote [c, m], parseQuality qs, b, []⟩ := by
  rw [hroot]
  have hq_ns : ('/' : Char) ∉ parseQuality qs := pq_no_slash qs hqs_ns
  have h_idem := parseQuality_idem qs
  by_cases hqm : parseQuality qs = ['m', 'a', 'j']
  · have hts : toSimple ⟨[c, m], parseQuality qs, b, []⟩ = [c, m] := by
      simp [toSimple, hqm]
    rw [hts]
    have hp := pcc_shape2 c m [] hnl hm (by simp)
    rw [normalizeChordSimple, normalizeChord, hp]
    dsimp only
    rw [hroot]
    rw [show parseQuality [] = ['m', 'a', 'j'] from by decide]
    simp [toSimple]
  · have hts : toSimple ⟨[c, m], parseQuality qs, b, []⟩ =
        c :: m :: parseQuality qs := by
      simp [toSimple, hqm]
    rw [hts]
    have hp := pcc_shape2 c m (parseQuality qs) hnl hm hq_ns
    rw [normalizeChordSimple, normalizeChord, hp]
    dsimp only
    rw [hroot]
    rw [toSimple]
    dsimp only
    rw [h_idem, if_neg hqm]
    rfl

/-- Re-normalizing the simple form of a chord whose dataset sharp was
rewritten to `#` reproduces it. -/
theorem norm_idem_sharp (c : Char) (qs : List Char) (b : Option (List Char))
    (hnl : noteLetter c = true)
    (hroot : normalizeNote [c, 's'] = [c, '#'])
    (hqs_ns : ('/' : Char) ∉ qs) :
    normalizeChordSimple (toSimple ⟨normalizeNote [c, 's'], parseQuality qs, b, []⟩)
      = toSimple ⟨normalizeNote [c, 's'], parseQuality qs, b, []⟩ := by
  rw [hroot]
  have hq_ns : ('/' : Char) ∉ parseQuality qs := pq_no_slash qs hqs_ns
  have h_no3d := pq_no3d qs
  have h_idem := parseQuality_idem qs
  have hhash : parseQuality ('#' :: parseQuality qs) = '#' :: parseQuality qs := by
    rw [parseQuality_hash (parseQuality qs) h_no3d]
  by_cases hqm : parseQuality qs = ['m', 'a', 'j']
  · have hts : toSimple ⟨[c, '#'], parseQuality qs, b, []⟩ = [c, '#'] := by
      simp [toSimple, hqm]
    rw [hts]
    have hp := pcc_shape1 c ['#'] hnl (by decide)
      (by
        intro m t ht
        simp at ht
        rw [← ht.1]
        decide)
    rw [normalizeChordSimple, normalizeChord]
    rw [show ([c, '#'] : List Char) = c :: ['#'] from rfl, hp]
    dsimp only
    rw [show parseQuality ['#'] = ['#'] from by decide]
    simp [toSimple]
  · have hts : toSimple ⟨[c, '#'], parseQuality qs, b, []⟩ =
        c :: '#' :: parseQuality qs := by
      simp [toSimple, hqm]
    rw [hts]
    have hsharphd : ∀ m t, ('#' :: parseQuality qs) = m :: t →
        ¬(m = 's' ∨ m = 'b') := by
      intro m t ht
      rw [show m = '#' from (List.cons.injEq _ _ _ _ ▸ ht).1.symm]
      decide
    have hsharpns : ('/' : Char) ∉ '#' :: parseQuality qs := by
      intro hmem
      rcases List.mem_cons.mp hmem with h1 | h1
      · exact absurd h1 (by decide)
      · exact hq_ns h1
    have hp := pcc_shape1 c ('#' :: parseQuality qs) hnl hsharpns hsharphd
    rw [normalizeChordSimple, normalizeChord, hp]
    dsimp only
    rw [hhash]
    rw [toSimple]
    dsimp only
    rw [if_neg (by simp : ¬('#' :: parseQuality qs = ['m', 'a', 'j']))]
    rfl

/-- The simple form of any successfully parsed chord re-normalizes to
itself: `normalize_chord_simple` is the identity on such canonical forms. -/
theorem normalize_simple_idem (y : List Char) (r q : List Char)
    (b : Option (List Char)) (h : parseChordComponents y = some (r, q, b)) :
    normalizeChordSimple (toSimple ⟨r, q, b, []⟩) = toSimple ⟨r, q, b, []⟩ := by
  obtain ⟨tok, qs, hprt, hr, hq, hb⟩ := pcc_some h
  have hs_noslash : ('/' : Char) ∉ (splitSlash y).1 := splitSlash_fst_no_slash y
  subst hr
  subst hq
  rcases prt_some hprt with ⟨c, hnl, htok, hqs, hsy⟩ |
      ⟨c, m, rest2, hnl, hm, htok, hqs, hsy⟩ |
      ⟨c, m, rest2, hnl, hm, htok, hqs, hsy⟩
  · subst htok
    subst hqs
    rw [normalizeNote_single]
    exact norm_idem_plain c [] b hnl (by simp) (by intro c' hc'; simp at hc')
  · subst htok
    subst hqs
    have hqs_ns : ('/' : Char) ∉ qs := by
      rw [hsy] at hs_noslash
      intro hmem
      exact hs_noslash (List.mem_cons_of_mem _ (List.mem_cons_of_mem _ hmem))
    rcases hm with hms | hmb
    · subst hms
      have hnl' := hnl
      simp [noteLetter] at hnl'
      rcases hnl' with hc | hc | hc | hc | hc | hc | hc <;> subst hc
      · exact norm_idem_sharp 'A' qs b (by decide) (by decide) hqs_ns
      · exact norm_idem_mod 'B' 's' qs b (by decide) (Or.inl rfl)
          (by decide) hqs_ns
      · exact norm_idem_sharp 'C' qs b (by decide) (by decide) hqs_ns
      · exact norm_idem_sharp 'D' qs b (by decide) (by decide) hqs_ns
      · exact norm_idem_mod 'E' 's' qs b (by decide) (Or.inl rfl)
          (by decide) hqs_ns
      · exact norm_idem_sharp 'F' qs b (by decide) (by decide) hqs_ns
      · exact norm_idem_sharp 'G' qs b (by decide) (by decide) hqs_ns
    · subst hmb
      exact norm_idem_mod c 'b' qs b hnl (Or.inr rfl)
        (normalizeNote_b c) hqs_ns
  · subst htok
    subst hqs
    rw [normalizeNote_single]
    have hqs_ns : ('/' : Char) ∉ m :: rest2 := by
      rw [hsy] at hs_noslash
      intro hmem
      exact hs_noslash (List.mem_cons_of_mem _ hmem)
    refine norm_idem_plain c (m :: rest2) b hnl hqs_ns ?_
    intro c' hc'
    simp at hc'
    subst hc'
    exact hm

/-- **C4**: for every chord string `x` already in canonical simple form —
i.e. `x = normalize_chord_simple y` for some input `y` — re-normalizing the
simple form, `normalize_chord(to_simple(normalize_chord(x)))`, yields the
same quality classification as `normalize_chord(x)`. -/
theorem c4_quality_stable_on_canonical (y : List Char) :
    (normalizeChord (normalizeChordSimple (normalizeChordSimple y))).quality
      = (normalizeChord (normalizeChordSimple y)).quality := by
  cases hp : parseChordComponents y with
  | some rqb =>
    obtain ⟨r, q, b⟩ := rqb
    have hx : normalizeChordSimple y = toSimple ⟨r, q, b, []⟩ := by
      rw [normalizeChordSimple, normalizeChord, hp]
    have hid := normalize_simple_idem y r q b hp
    rw [hx, hid]
  | none =>
    have hroot : parseRootTok (splitSlash y).1 = none := pcc_none.mp hp
    have h1 : parseRootTok (splitSlash (y ++ unknownQ)).1 = none :=
      parse_fail_append y hroot
    have h2 : parseRootTok (splitSlash ((y ++ unknownQ) ++ unknownQ)).1 = none :=
      parse_fail_append (y ++ unknownQ) h1
    have hp1 : parseChordComponents (y ++ unknownQ) = none := pcc_none.mpr h1
    have hp2 : parseChordComponents ((y ++ unknownQ) ++ unknownQ) = none :=
      pcc_none.mpr h2
    have hx : normalizeChordSimple y = y ++ unknownQ := by
      rw [normalizeChordSimple, normalizeChord, hp]
      dsimp only
      rw [toSimple]
      dsimp only
      rw [if_neg (by decide : ¬(unknownQ = ['m', 'a', 'j']))]
    have hx2 : normalizeChordSimple (y ++ unknownQ) =
        (y ++ unknownQ) ++ unknownQ := by
      rw [normalizeChordSimple, normalizeChord, hp1]
      dsimp only
      rw [toSimple]
      dsimp only
      rw [if_neg (by decide : ¬(unknownQ = ['m', 'a', 'j']))]
    rw [hx, hx2, normalizeChord, normalizeChord, hp1, hp2]

end MTE
